import Mathlib

/-!
Verification development for the toss-mcp repository core:
the markdown chunker (`toss_mcp/chunker.py`), the keyword searcher
(`toss_mcp/searcher.py`), the icon-catalog searcher (`toss_mcp/icons.py`),
the cache staleness layer (`toss_mcp/cache.py`) and the icon-search tool
entry point (`toss_mcp/main.py`).

Python strings are modelled as `List Char`; Python's `str.strip` /
`str.split` / `re.split` / substring `in` are modelled by executable
functions below, faithful to CPython semantics on the whitespace set
used by the repository's documents.  The external SHA-256 digest of
`cache.py` is kept abstract as a function parameter `hashFn`; the cache
files on disk are modelled by an explicit `CacheState`.
-/

namespace TossMcp

/-- Python strings, as lists of characters. -/
abbrev Str := List Char

/-- The whitespace set of Python's `str.strip()` / `str.split()`
(ASCII part, which is all the repository's inputs use). -/
def isWS (c : Char) : Bool :=
  c = ' ' || c = '\t' || c = '\n' || c = '\r' || c = '\x0b' || c = '\x0c'

/-- Python `s.strip()`: drop whitespace from both ends. -/
def strip (s : Str) : Str := (s.dropWhile isWS).rdropWhile isWS

/-- Python `s.lower()` (ASCII case folding, as used by the docs corpus). -/
def toLower (s : Str) : Str := s.map Char.toLower

/-- Split a string at every character satisfying `p`, keeping empty pieces:
`splitP (· = '\n') "a\nb"` is `["a", "b"]`, like Python `s.split(sep)`. -/
def splitP (p : Char → Bool) : Str → List Str
  | [] => [[]]
  | c :: rest =>
    if p c then [] :: splitP p rest
    else match splitP p rest with
      | l :: ls => (c :: l) :: ls
      | [] => [[c]]

/-- Python `text.split("\n")`. -/
def pyLines (s : Str) : List Str := splitP (fun c => c = '\n') s

/-- Python `s.split()` with no argument: split on whitespace runs,
dropping empty pieces. -/
def pySplitWS (s : Str) : List Str := (splitP isWS s).filter (fun l => !l.isEmpty)

/-- Python substring containment `needle in hay`. -/
def containsSub (needle : Str) : Str → Bool
  | [] => needle.isEmpty
  | c :: rest => needle.isPrefixOf (c :: rest) || containsSub needle rest

/-! ## chunker.py -/

/-- `MAX_CHUNK_LEN = 3000` from `chunker.py`. -/
def MAX_CHUNK_LEN : Nat := 3000

/-- The text of the multiline regex `^# ` (a match is this literal string
occurring at the start of a line). -/
def H1_PATTERN : Str := ['#', ' ']

/-- The text of the multiline regex `^## `. -/
def H2_PATTERN : Str := ['#', '#', ' ']

/-- The text of the multiline regex `^### `. -/
def H3_PATTERN : Str := ['#', '#', '#', ' ']

/-- Walk the text cutting a new raw segment at every line start where
`pat` occurs (the `m.start()` offsets of `pattern.finditer`): the first
returned segment is the text before the first match (possibly empty),
and each later segment runs from one match start to the next.
`atStart` records whether the current position is at a line start. -/
def splitRawAux (pat : Str) : Str → Str → Bool → List Str
  | acc, [], _ => [acc.reverse]
  | acc, c :: rest, atStart =>
    if atStart && pat.isPrefixOf (c :: rest) then
      acc.reverse :: splitRawAux pat [c] rest (c = '\n')
    else
      splitRawAux pat (c :: acc) rest (c = '\n')

/-- `_split_by_pattern(text, pattern)` from `chunker.py`: if the pattern
never matches, return `[text]` unchanged; otherwise strip every segment
(preamble included) and drop the empty ones. -/
def split_by_pattern (pat : Str) (s : Str) : List Str :=
  match splitRawAux pat [] s true with
  | [_] => [s]
  | rs => (rs.map strip).filter (fun l => !l.isEmpty)

/-- Scanner for Python `re.split(r"\n\n+", text)`: a separator is a
maximal run of at least two newlines.  The flag is true while consuming
the tail of a separator run. -/
def spAux : Bool → Str → Str → List Str
  | _, acc, [] => [acc.reverse]
  | true, acc, '\n' :: rest => spAux true acc rest
  | true, _acc, c :: rest => spAux false [c] rest
  | false, acc, '\n' :: '\n' :: rest => acc.reverse :: spAux true [] rest
  | false, acc, c :: rest => spAux false (c :: acc) rest

/-- Python `re.split(r"\n\n+", text)` used by `_force_split`. -/
def splitParas (s : Str) : List Str := spAux false [] s

/-- The loop of `_split_by_lines`: greedily pack lines into `current`,
flushing `current.strip()` when adding the next line (joined by a single
newline) would exceed `MAX_CHUNK_LEN`; at the end flush `current.strip()`
only if it is non-empty. -/
def sbl_go (current : Str) : List Str → List Str
  | [] => if (strip current).isEmpty then [] else [strip current]
  | line :: rest =>
    if MAX_CHUNK_LEN < current.length + line.length + 1 && !current.isEmpty then
      strip current :: sbl_go line rest
    else
      sbl_go (if current.isEmpty then line else current ++ '\n' :: line) rest

/-- `_split_by_lines(text)` from `chunker.py`. -/
def split_by_lines (text : Str) : List Str :=
  match sbl_go [] (pyLines text) with
  | [] => [text]
  | chunks => chunks

/-- The loop of `_force_split`: greedily pack blank-line-delimited
paragraphs (joined by a blank line, hence the `+ 2`); a single paragraph
longer than `MAX_CHUNK_LEN` flushes the accumulator (only if non-empty
after stripping) and is split by lines instead. -/
def fs_go (current : Str) : List Str → List Str
  | [] => if (strip current).isEmpty then [] else [strip current]
  | para :: rest =>
    if MAX_CHUNK_LEN < para.length then
      (if (strip current).isEmpty then [] else [strip current]) ++
        split_by_lines para ++ fs_go [] rest
    else if MAX_CHUNK_LEN < current.length + para.length + 2 && !current.isEmpty then
      strip current :: fs_go para rest
    else
      fs_go (if current.isEmpty then para else current ++ '\n' :: '\n' :: para) rest

/-- `_force_split(text)` from `chunker.py`. -/
def force_split (text : Str) : List Str :=
  match fs_go [] (splitParas text) with
  | [] => [text]
  | chunks => chunks

/-- Sequence a list of optional chunk lists, concatenating the results
(the `result.extend(_split_chunk(p))` loop of `_split_chunk`). -/
def optJoinMap (f : Str → Option (List Str)) : List Str → Option (List Str)
  | [] => some []
  | p :: ps =>
    match f p, optJoinMap f ps with
    | some a, some b => some (a ++ b)
    | _, _ => none

/-- One unfolding of `_split_chunk(text)`: accept texts within
`MAX_CHUNK_LEN`; otherwise try an H2 split, then an H3 split, recursing
(via `rec`) only when the split actually subdivides (more than one
part); otherwise fall back to `_force_split`. -/
def split_chunk_step (rec : Str → Option (List Str)) (text : Str) : Option (List Str) :=
  if text.length ≤ MAX_CHUNK_LEN then some [text]
  else if 1 < (split_by_pattern H2_PATTERN text).length then
    optJoinMap rec (split_by_pattern H2_PATTERN text)
  else if 1 < (split_by_pattern H3_PATTERN text).length then
    optJoinMap rec (split_by_pattern H3_PATTERN text)
  else if MAX_CHUNK_LEN < text.length then some (force_split text)
  else some [text]

/-- `_split_chunk` with an explicit recursion-depth budget: `none` means
the budget was exhausted.  The recursion of the Python source terminates
because parts of a real subdivision are strictly shorter, so a budget of
`text.length + 1` always suffices (proved below). -/
def split_chunk_fuel : Nat → Str → Option (List Str)
  | 0 => fun _ => none
  | fuel + 1 => split_chunk_step (split_chunk_fuel fuel)

/-- `_split_chunk(text)` from `chunker.py` (total, via the sufficient
budget). -/
def split_chunk (text : Str) : List Str :=
  (split_chunk_fuel (text.length + 1) text).getD [text]

/-- Loop of `_extract_header`: first line whose stripped form starts
with `#`, with leading `#` markers and surrounding whitespace removed. -/
def extract_header_go : List Str → Str
  | [] => []
  | line :: rest =>
    match strip line with
    | [] => extract_header_go rest
    | c :: cs =>
      if c = '#' then strip ((c :: cs).dropWhile (fun d => d = '#'))
      else extract_header_go rest

/-- `_extract_header(text)` from `chunker.py`. -/
def extract_header (text : Str) : Str := extract_header_go (pyLines (strip text))

/-- A document as produced by the fetch layer: `{source, url, title, content}`. -/
structure Document where
  source : Str
  url : Str
  title : Str
  content : Str
deriving DecidableEq, Repr

/-- A fragment (chunk): `{source, url, header, content}`. -/
structure Fragment where
  source : Str
  url : Str
  header : Str
  content : Str
deriving DecidableEq, Repr

/-- `chunk_document(doc)` from `chunker.py`: H1 split, recursive
splitting of oversized parts, header extraction, and a final `strip`
on every emitted content. -/
def chunk_document (doc : Document) : List Fragment :=
  ((split_by_pattern H1_PATTERN doc.content).map (fun part =>
    (split_chunk part).map (fun sp =>
      { source := doc.source, url := doc.url,
        header := extract_header sp, content := strip sp : Fragment }))).flatten

/-! ## Basic lemmas about `strip` and non-whitespace content -/

/-- The non-whitespace characters of a string, in order. -/
def nws (s : Str) : Str := s.filter (fun c => !isWS c)

theorem strip_length_le (s : Str) : (strip s).length ≤ s.length :=
  le_trans (List.rdropWhile_prefix isWS _).length_le (List.dropWhile_suffix isWS).length_le

theorem strip_infixOf (s : Str) : strip s <:+: s :=
  ((List.rdropWhile_prefix isWS _).isInfix).trans (List.dropWhile_suffix isWS).isInfix

theorem strip_eq_nil_iff (s : Str) : strip s = [] ↔ ∀ c ∈ s, isWS c = true := by
  unfold strip
  rw [List.rdropWhile_eq_nil_iff]
  constructor
  · intro h c hc
    have hs := List.takeWhile_append_dropWhile isWS s
    rcases List.mem_append.mp (hs ▸ hc) with h1 | h2
    · exact List.mem_takeWhile_imp h1
    · exact h c h2
  · intro h c hc
    exact h c ((List.dropWhile_suffix isWS).subset hc)

theorem strip_strip (s : Str) : strip (strip s) = strip s := by
  have hhead : List.dropWhile isWS (strip s) = strip s := by
    rw [List.dropWhile_eq_self_iff]
    intro hl
    have hpre : strip s <+: s.dropWhile isWS := List.rdropWhile_prefix isWS _
    have hlen : 0 < (s.dropWhile isWS).length := lt_of_lt_of_le hl hpre.length_le
    have hne : s.dropWhile isWS ≠ [] := List.ne_nil_of_length_pos hlen
    have h0 : (strip s).get ⟨0, hl⟩ = (s.dropWhile isWS).get ⟨0, hlen⟩ := by
      simpa using hpre.getElem hl
    have hh := List.head_dropWhile_not isWS s hne
    rw [List.head_eq_getElem_zero hne] at hh
    rw [h0]
    simpa using hh
  show List.rdropWhile isWS (List.dropWhile isWS (strip s)) = strip s
  rw [hhead]
  exact List.rdropWhile_idempotent isWS _

theorem nws_append (a b : Str) : nws (a ++ b) = nws a ++ nws b := List.filter_append ..

theorem nws_eq_nil_iff (s : Str) : nws s = [] ↔ ∀ c ∈ s, isWS c = true := by
  simp [nws, List.filter_eq_nil_iff]

theorem nws_dropWhile (s : Str) : nws (s.dropWhile isWS) = nws s := by
  conv_rhs => rw [← List.takeWhile_append_dropWhile isWS s]
  rw [nws_append]
  have : nws (s.takeWhile isWS) = [] :=
    (nws_eq_nil_iff _).mpr (fun c hc => List.mem_takeWhile_imp hc)
  simp [this]

theorem nws_reverse (s : Str) : nws s.reverse = (nws s).reverse := List.filter_reverse ..

theorem nws_strip (s : Str) : nws (strip s) = nws s := by
  unfold strip List.rdropWhile
  rw [nws_reverse, nws_dropWhile, nws_reverse, List.reverse_reverse, nws_dropWhile]

theorem strip_eq_nil_of_nws_eq_nil {s : Str} (h : nws s = []) : strip s = [] :=
  (strip_eq_nil_iff s).mpr ((nws_eq_nil_iff s).mp h)

/-! ## Lemmas about `splitP` (Python `str.split`) -/

theorem splitP_ne_nil (p : Char → Bool) (s : Str) : splitP p s ≠ [] := by
  cases s with
  | nil => simp [splitP]
  | cons c rest =>
    simp only [splitP]
    split
    · simp
    · split <;> simp

theorem splitP_cons_eq (p : Char → Bool) (c : Char) (rest : Str) :
    ∃ l ls, splitP p rest = l :: ls ∧
      splitP p (c :: rest) = if p c then [] :: l :: ls else (c :: l) :: ls := by
  obtain ⟨l, ls, h⟩ : ∃ l ls, splitP p rest = l :: ls := by
    cases hh : splitP p rest with
    | nil => exact absurd hh (splitP_ne_nil p rest)
    | cons a as => exact ⟨a, as, rfl⟩
  refine ⟨l, ls, h, ?_⟩
  by_cases hc : p c <;> simp [splitP, h, hc]

theorem splitP_head_prefix (p : Char → Bool) :
    ∀ (s : Str) {l : Str} {ls : List Str}, splitP p s = l :: ls → l <+: s := by
  intro s
  induction s with
  | nil => intro l ls h; simp [splitP] at h; simp [h.1]
  | cons c rest ih =>
    intro l ls h
    obtain ⟨l0, ls0, h0, hsplit⟩ := splitP_cons_eq p c rest
    by_cases hc : p c
    · rw [hsplit, if_pos hc] at h
      cases h
      exact List.nil_prefix
    · rw [hsplit, if_neg hc] at h
      cases h
      exact List.cons_prefix_cons.mpr ⟨rfl, ih h0⟩

theorem mem_splitP_infixOf (p : Char → Bool) :
    ∀ (s : Str) {l : Str}, l ∈ splitP p s → l <:+: s := by
  intro s
  induction s with
  | nil => intro l h; simp [splitP] at h; simp [h]
  | cons c rest ih =>
    intro l h
    obtain ⟨l0, ls0, h0, hsplit⟩ := splitP_cons_eq p c rest
    by_cases hc : p c
    · rw [hsplit, if_pos hc] at h
      rcases List.mem_cons.mp h with h1 | h1
      · simp [h1]
      · exact (ih (h0 ▸ h1)).trans (List.infix_cons (List.infix_refl rest))
    · rw [hsplit, if_neg hc] at h
      rcases List.mem_cons.mp h with h1 | h1
      · subst h1
        exact (List.cons_prefix_cons.mpr ⟨rfl, splitP_head_prefix p rest h0⟩).isInfix
      · exact (ih (h0 ▸ List.mem_cons_of_mem l0 h1)).trans
          (List.infix_cons (List.infix_refl rest))

theorem mem_splitP_noSep (p : Char → Bool) :
    ∀ (s : Str) {l : Str}, l ∈ splitP p s → ∀ c ∈ l, p c = false := by
  intro s
  induction s with
  | nil => intro l h; simp [splitP] at h; simp [h]
  | cons c rest ih =>
    intro l h d hd
    obtain ⟨l0, ls0, h0, hsplit⟩ := splitP_cons_eq p c rest
    by_cases hc : p c
    · rw [hsplit, if_pos hc] at h
      rcases List.mem_cons.mp h with h1 | h1
      · subst h1; simp at hd
      · exact ih (h0 ▸ h1) d hd
    · rw [hsplit, if_neg hc] at h
      rcases List.mem_cons.mp h with h1 | h1
      · subst h1
        rcases List.mem_cons.mp hd with h2 | h2
        · subst h2; simpa using hc
        · exact ih (h0 ▸ List.mem_cons_self l0 ls0) d h2
      · exact ih (h0 ▸ List.mem_cons_of_mem l0 h1) d hd

theorem nws_cons (c : Char) (s : Str) :
    nws (c :: s) = if isWS c then nws s else c :: nws s := by
  simp only [nws, List.filter_cons]
  cases h : isWS c <;> simp

theorem nws_flatten_splitP {p : Char → Bool} (hp : ∀ c, p c = true → isWS c = true) :
    ∀ s : Str, ((splitP p s).map nws).flatten = nws s := by
  intro s
  induction s with
  | nil => simp [splitP, nws]
  | cons c rest ih =>
    obtain ⟨l0, ls0, h0, hsplit⟩ := splitP_cons_eq p c rest
    by_cases hc : p c
    · have hws : isWS c = true := hp c hc
      rw [hsplit, if_pos hc, nws_cons, if_pos hws, h0.symm]
      simpa using ih
    · rw [hsplit, if_neg hc]
      have hflat : nws l0 ++ (ls0.map nws).flatten = nws rest := by
        have h2 := ih
        rw [h0] at h2
        simpa using h2
      simp only [List.map_cons, List.flatten_cons, nws_cons c rest, nws_cons c l0]
      cases hw : isWS c <;> simp [hflat]

theorem splitP_prefix_head (p : Char → Bool) :
    ∀ {t s : Str}, t <+: s → (∀ c ∈ t, p c = false) →
      ∃ l ls, splitP p s = l :: ls ∧ t <+: l := by
  intro t
  induction t with
  | nil =>
    intro s _ _
    cases hh : splitP p s with
    | nil => exact absurd hh (splitP_ne_nil p s)
    | cons a as => exact ⟨a, as, rfl, List.nil_prefix⟩
  | cons c t' ih =>
    intro s hpre hns
    cases s with
    | nil => exact absurd hpre (by simp)
    | cons b s' =>
      obtain ⟨rfl, hpre'⟩ := List.cons_prefix_cons.mp hpre
      have hc : p c = false := hns c (List.mem_cons_self c t')
      obtain ⟨l, ls, hl, htl⟩ := ih hpre' (fun d hd => hns d (List.mem_cons_of_mem c hd))
      obtain ⟨l0, ls0, h0, hsplit⟩ := splitP_cons_eq p c s'
      rw [h0] at hl
      injection hl with h1 h2
      refine ⟨c :: l0, ls0, by rw [hsplit, if_neg (by simp [hc])], ?_⟩
      exact List.cons_prefix_cons.mpr ⟨rfl, by rw [h1]; exact htl⟩

theorem splitP_tail_all {p : Char → Bool} {n : Nat} {c : Char} {s : Str}
    (hall : ∀ l ∈ splitP p (c :: s), l.length ≤ n) :
    ∀ l ∈ splitP p s, l.length ≤ n := by
  obtain ⟨l0, ls0, h0, hsplit⟩ := splitP_cons_eq p c s
  intro l hl
  rw [h0] at hl
  by_cases hc : p c
  · exact hall l (by rw [hsplit, if_pos hc]; exact List.mem_cons_of_mem _ hl)
  · rcases List.mem_cons.mp hl with h1 | h1
    · subst h1
      have hle := hall (c :: l) (by rw [hsplit, if_neg hc]; exact List.mem_cons_self ..)
      exact le_trans (by simp) hle
    · exact hall l (by rw [hsplit, if_neg hc]; exact List.mem_cons_of_mem _ h1)

theorem infix_nosep_length_le {p : Char → Bool} {n : Nat} {t s : Str}
    (hall : ∀ l ∈ splitP p s, l.length ≤ n)
    (hinf : t <:+: s) (hns : ∀ c ∈ t, p c = false) : t.length ≤ n := by
  obtain ⟨pre, suf, rfl⟩ := hinf
  induction pre with
  | nil =>
    simp only [List.nil_append] at hall
    obtain ⟨l, ls, hl, htl⟩ := splitP_prefix_head p
      (List.prefix_append t suf) hns
    have := hall l (by rw [hl]; exact List.mem_cons_self ..)
    calc t.length ≤ l.length := htl.length_le
      _ ≤ n := this
  | cons c pre' ih => exact ih (splitP_tail_all hall)

/-! ## Lemmas about `splitRawAux` / `split_by_pattern` -/

theorem nws_flatten (L : List Str) : nws L.flatten = (L.map nws).flatten := by
  induction L with
  | nil => rfl
  | cons a L ih => simp [List.flatten_cons, nws_append, ih]

theorem splitRawAux_flatten (pat : Str) :
    ∀ acc s b, (splitRawAux pat acc s b).flatten = acc.reverse ++ s := by
  intro acc s b
  induction acc, s, b using splitRawAux.induct pat with
  | case1 acc b => simp [splitRawAux]
  | case2 acc c rest atStart hcond ih =>
    rw [splitRawAux, if_pos hcond]
    simp only [List.flatten_cons, ih]
    simp
  | case3 acc c rest atStart hcond ih =>
    rw [splitRawAux, if_neg hcond]
    rw [ih]
    simp

theorem splitRawAux_ne_nil (pat : Str) :
    ∀ acc s b, splitRawAux pat acc s b ≠ [] := by
  intro acc s b
  induction acc, s, b using splitRawAux.induct pat with
  | case1 acc b => simp [splitRawAux]
  | case2 acc c rest atStart hcond ih => rw [splitRawAux, if_pos hcond]; simp
  | case3 acc c rest atStart hcond ih => rw [splitRawAux, if_neg hcond]; exact ih

theorem splitRawAux_mem_infixOf (pat : Str) {acc s : Str} {b : Bool} {r : Str}
    (hr : r ∈ splitRawAux pat acc s b) : r <:+: acc.reverse ++ s := by
  rw [← splitRawAux_flatten pat acc s b]
  exact List.infix_of_mem_flatten hr

theorem mem_split_by_pattern_infixOf {pat s part : Str}
    (h : part ∈ split_by_pattern pat s) : part <:+: s := by
  unfold split_by_pattern at h
  rcases hs : splitRawAux pat [] s true with _ | ⟨r, rs⟩
  · exact absurd hs (splitRawAux_ne_nil pat [] s true)
  · rcases rs with _ | ⟨r2, rs2⟩
    · rw [hs] at h
      simp only at h
      rcases List.mem_singleton.mp h with rfl
      exact List.infix_refl _
    · rw [hs] at h
      simp only at h
      obtain ⟨q, hq, rfl⟩ : ∃ q, q ∈ r :: r2 :: rs2 ∧ strip q = part := by
        have h2 := List.mem_filter.mp h
        obtain ⟨q, hq, hqe⟩ := List.mem_map.mp h2.1
        exact ⟨q, hq, hqe⟩
      have hi : q <:+: ([] : Str).reverse ++ s := splitRawAux_mem_infixOf pat (hs ▸ hq)
      simpa using (strip_infixOf q).trans hi

theorem nws_flatten_split_by_pattern (pat s : Str) :
    (((split_by_pattern pat s).map nws)).flatten = nws s := by
  have hflat : (splitRawAux pat [] s true).flatten = s := by
    simpa using splitRawAux_flatten pat [] s true
  have hgen : ∀ rs : List Str,
      (((rs.map strip).filter (fun l => !l.isEmpty)).map nws).flatten
        = (rs.map nws).flatten := by
    intro rs
    induction rs with
    | nil => rfl
    | cons r rest ih =>
      by_cases he : (strip r).isEmpty
      · have h0 : strip r = [] := by simpa [List.isEmpty_iff] using he
        have h1 : nws r = [] := by rw [← nws_strip, h0]; rfl
        simp [List.filter_cons, he, ih, h1]
      · simp [List.filter_cons, he, ih, nws_strip]
  unfold split_by_pattern
  rcases hs : splitRawAux pat [] s true with _ | ⟨r, rs⟩
  · exact absurd hs (splitRawAux_ne_nil pat [] s true)
  · rcases rs with _ | ⟨r2, rs2⟩
    · simp
    · simp only
      have h3 : (r :: r2 :: rs2).flatten = s := by rw [← hs]; exact hflat
      rw [hgen (r :: r2 :: rs2), ← nws_flatten, h3]

theorem strip_filter_length_le {rs : List Str} {p : Str}
    (hp : p ∈ (rs.map strip).filter (fun l => !l.isEmpty)) :
    p.length ≤ (rs.map List.length).sum := by
  induction rs with
  | nil => simp at hp
  | cons r rest ih =>
    simp only [List.map_cons, List.filter_cons] at hp
    by_cases he : (strip r).isEmpty
    · simp only [he, Bool.not_true, if_neg (Bool.false_ne_true)] at hp
      exact le_trans (ih hp) (by simp)
    · rw [Bool.not_eq_true] at he
      simp only [he, Bool.not_false, if_pos rfl] at hp
      rcases List.mem_cons.mp hp with rfl | h1
      · exact le_trans (strip_length_le r) (by simp)
      · exact le_trans (ih h1) (by simp)

theorem strip_filter_two_lt {rs : List Str}
    (h2 : 2 ≤ ((rs.map strip).filter (fun l => !l.isEmpty)).length) :
    ∀ p ∈ (rs.map strip).filter (fun l => !l.isEmpty),
      p.length + 1 ≤ (rs.map List.length).sum := by
  induction rs with
  | nil => simp at h2
  | cons r rest ih =>
    intro p hp
    simp only [List.map_cons, List.filter_cons] at hp h2
    by_cases he : (strip r).isEmpty
    · simp only [he, Bool.not_true, if_neg (Bool.false_ne_true)] at hp h2
      exact le_trans (ih h2 p hp) (by simp)
    · rw [Bool.not_eq_true] at he
      simp only [he, Bool.not_false, if_pos rfl] at hp h2
      rw [if_pos trivial] at h2
      have hrlen : 1 ≤ r.length := by
        have hne : strip r ≠ [] := fun hnil => by simp [hnil] at he
        have h4 := List.length_pos_of_ne_nil hne
        have h3 := strip_length_le r
        omega
      rcases List.mem_cons.mp hp with rfl | h1
      · -- the stripped head part; some later part is non-empty
        have hrest : 1 ≤ ((rest.map strip).filter (fun l => !l.isEmpty)).length := by
          have h8 : (strip r :: (rest.map strip).filter (fun l => !l.isEmpty)).length
              = ((rest.map strip).filter (fun l => !l.isEmpty)).length + 1 :=
            List.length_cons ..
          omega
        obtain ⟨q, hq⟩ := List.exists_mem_of_length_pos hrest
        have hq1 : 1 ≤ q.length := by
          have h5 := (List.mem_filter.mp hq).2
          have hne : q ≠ [] := by simpa [List.isEmpty_iff] using h5
          exact List.length_pos_of_ne_nil hne
        have hqsum : q.length ≤ (rest.map List.length).sum := strip_filter_length_le hq
        have hple : (strip r).length ≤ r.length := strip_length_le r
        simp only [List.map_cons, List.sum_cons]
        omega
      · have h6 := strip_filter_length_le h1
        simp only [List.map_cons, List.sum_cons]
        omega

theorem split_by_pattern_parts_lt {pat s : Str}
    (h2 : 1 < (split_by_pattern pat s).length) :
    ∀ p ∈ split_by_pattern pat s, p.length < s.length := by
  intro p hp
  unfold split_by_pattern at hp h2
  rcases hs : splitRawAux pat [] s true with _ | ⟨r, rs⟩
  · exact absurd hs (splitRawAux_ne_nil pat [] s true)
  · rcases rs with _ | ⟨r2, rs2⟩
    · rw [hs] at h2; simp at h2
    · rw [hs] at hp h2
      simp only at hp h2
      have hsum : ((r :: r2 :: rs2).map List.length).sum = s.length := by
        rw [← List.length_flatten]
        have h3 : (r :: r2 :: rs2).flatten = s := by
          rw [← hs]; simpa using splitRawAux_flatten pat [] s true
        rw [h3]
      have h7 := strip_filter_two_lt (by omega) p hp
      omega

/-! ## Lemmas about `spAux` / `splitParas` -/

theorem spAux_mem_infixOf :
    ∀ b acc s, (b = true → acc = []) → ∀ r ∈ spAux b acc s, r <:+: acc.reverse ++ s := by
  intro b acc s
  induction b, acc, s using spAux.induct with
  | case1 b acc =>
    intro _ r hr
    rw [spAux.eq_1] at hr
    rcases List.mem_singleton.mp hr with rfl
    exact (List.prefix_append ..).isInfix
  | case2 acc rest ih =>
    intro hinv r hr
    rw [spAux.eq_2] at hr
    have hacc : acc = [] := hinv rfl
    subst hacc
    have h2 := ih (fun _ => rfl) r hr
    simp only [List.reverse_nil, List.nil_append] at h2 ⊢
    exact h2.trans (List.infix_cons (List.infix_refl rest))
  | case3 acc2 c rest hc ih =>
    intro hinv r hr
    rw [spAux.eq_3 _ _ _ hc] at hr
    have hacc : acc2 = [] := hinv rfl
    subst hacc
    have h2 := ih (fun h => nomatch h) r hr
    simpa using h2
  | case4 acc rest ih =>
    intro _ r hr
    rw [spAux.eq_4] at hr
    rcases List.mem_cons.mp hr with rfl | hr2
    · exact (List.prefix_append ..).isInfix
    · have h2 := ih (fun _ => rfl) r hr2
      simp only [List.reverse_nil, List.nil_append] at h2
      refine h2.trans ⟨acc.reverse ++ ['\n', '\n'], [], by simp⟩
  | case5 acc c rest hc ih =>
    intro _ r hr
    rw [spAux.eq_5 _ _ _ hc] at hr
    have h2 := ih (fun h => nomatch h) r hr
    simpa using h2

theorem spAux_nws :
    ∀ b acc s, (b = true → acc = []) →
      ((spAux b acc s).map nws).flatten = nws acc.reverse ++ nws s := by
  intro b acc s
  induction b, acc, s using spAux.induct with
  | case1 b acc => intro _; rw [spAux.eq_1]; simp [nws]
  | case2 acc rest ih =>
    intro hinv
    rw [spAux.eq_2, ih hinv, nws_cons]
    simp [isWS]
  | case3 acc2 c rest hc ih =>
    intro hinv
    have hacc : acc2 = [] := hinv rfl
    subst hacc
    rw [spAux.eq_3 _ _ _ hc, ih (fun h => nomatch h)]
    cases h : isWS c <;> simp [nws_cons, nws, h]
  | case4 acc rest ih =>
    intro _
    rw [spAux.eq_4]
    simp only [List.map_cons, List.flatten_cons, ih (fun _ => rfl)]
    rw [nws_cons, nws_cons]
    simp [isWS, nws]
  | case5 acc c rest hc ih =>
    intro _
    rw [spAux.eq_5 _ _ _ hc, ih (fun h => nomatch h), List.reverse_cons, nws_append,
      nws_cons]
    cases h : isWS c <;> simp [nws, h]

theorem mem_splitParas_infixOf {s p : Str} (hp : p ∈ splitParas s) : p <:+: s := by
  simpa using spAux_mem_infixOf false [] s (fun h => nomatch h) p hp

theorem nws_flatten_splitParas (s : Str) :
    ((splitParas s).map nws).flatten = nws s := by
  simpa [nws] using spAux_nws false [] s (fun h => nomatch h)

/-! ## Lemmas about `sbl_go` / `split_by_lines` -/

theorem sbl_go_bound :
    ∀ lines current, (∀ l ∈ lines, l.length ≤ MAX_CHUNK_LEN) →
      current.length ≤ MAX_CHUNK_LEN →
      ∀ o ∈ sbl_go current lines, o.length ≤ MAX_CHUNK_LEN := by
  intro lines
  induction lines with
  | nil =>
    intro current _ hcur o ho
    simp only [sbl_go] at ho
    split at ho
    · simp at ho
    · rcases List.mem_singleton.mp ho with rfl
      exact le_trans (strip_length_le current) hcur
  | cons line rest ih =>
    intro current hl hcur o ho
    have hline : line.length ≤ MAX_CHUNK_LEN := hl line (List.mem_cons_self ..)
    have hrest : ∀ l ∈ rest, l.length ≤ MAX_CHUNK_LEN :=
      fun l h => hl l (List.mem_cons_of_mem _ h)
    simp only [sbl_go] at ho
    split at ho
    · rcases List.mem_cons.mp ho with rfl | ho2
      · exact le_trans (strip_length_le current) hcur
      · exact ih line hrest hline o ho2
    · rename_i hcond
      by_cases he : current.isEmpty
      · rw [if_pos he] at ho
        exact ih line hrest hline o ho
      · rw [if_neg he] at ho
        have hcond2 : ¬ MAX_CHUNK_LEN < current.length + line.length + 1 := by
          intro hlt
          exact hcond (by simp [hlt, he])
        have hlen : (current ++ '\n' :: line).length
            = current.length + line.length + 1 := by
          rw [List.length_append, List.length_cons]; omega
        exact ih _ hrest (by omega) o ho

theorem sbl_go_nws :
    ∀ lines current, ((sbl_go current lines).map nws).flatten
      = nws current ++ (lines.map nws).flatten := by
  intro lines
  induction lines with
  | nil =>
    intro current
    simp only [sbl_go]
    split
    · rename_i he
      have h0 : strip current = [] := by simpa [List.isEmpty_iff] using he
      have h1 : nws current = [] := by rw [← nws_strip, h0]; rfl
      simp [h1]
    · simp [nws_strip]
  | cons line rest ih =>
    intro current
    simp only [sbl_go]
    split
    · simp [List.flatten_cons, ih line, nws_strip]
    · by_cases he : current.isEmpty
      · rw [if_pos he]
        have h0 : current = [] := by simpa [List.isEmpty_iff] using he
        subst h0
        simp [ih line, nws]
      · rw [if_neg he]
        rw [ih _]
        rw [nws_append, nws_cons]
        simp [isWS]

theorem sbl_go_empty_allWS :
    ∀ lines current, sbl_go current lines = [] →
      (∀ c ∈ current, isWS c = true) ∧ ∀ l ∈ lines, ∀ c ∈ l, isWS c = true := by
  intro lines
  induction lines with
  | nil =>
    intro current h
    simp only [sbl_go] at h
    split at h
    · rename_i he
      have h0 : strip current = [] := by simpa [List.isEmpty_iff] using he
      exact ⟨(strip_eq_nil_iff current).mp h0, by simp⟩
    · simp at h
  | cons line rest ih =>
    intro current h
    simp only [sbl_go] at h
    split at h
    · simp at h
    · by_cases he : current.isEmpty
      · rw [if_pos he] at h
        have h0 : current = [] := by simpa [List.isEmpty_iff] using he
        subst h0
        obtain ⟨h1, h2⟩ := ih line h
        refine ⟨by simp, ?_⟩
        intro l hl
        rcases List.mem_cons.mp hl with rfl | hl2
        · exact h1
        · exact h2 l hl2
      · rw [if_neg he] at h
        obtain ⟨h1, h2⟩ := ih _ h
        have hcur : ∀ c ∈ current, isWS c = true :=
          fun c hc => h1 c (List.mem_append.mpr (Or.inl hc))
        have hline : ∀ c ∈ line, isWS c = true :=
          fun c hc => h1 c (List.mem_append.mpr (Or.inr (List.mem_cons_of_mem _ hc)))
        refine ⟨hcur, ?_⟩
        intro l hl
        rcases List.mem_cons.mp hl with rfl | hl2
        · exact hline
        · exact h2 l hl2

theorem nws_flatten_pyLines (s : Str) : ((pyLines s).map nws).flatten = nws s :=
  nws_flatten_splitP (fun c hc => by rw [of_decide_eq_true hc]; decide) s

theorem split_by_lines_ne_nil (text : Str) : split_by_lines text ≠ [] := by
  unfold split_by_lines
  split
  · simp
  · rename_i chunks hne
    simpa using hne

theorem split_by_lines_bound {text : Str}
    (hl : ∀ l ∈ pyLines text, l.length ≤ MAX_CHUNK_LEN) :
    ∀ o ∈ split_by_lines text, (strip o).length ≤ MAX_CHUNK_LEN := by
  intro o ho
  unfold split_by_lines at ho
  split at ho
  · rename_i hnil
    rcases List.mem_singleton.mp ho with rfl
    obtain ⟨_, hws⟩ := sbl_go_empty_allWS (pyLines o) [] hnil
    have hnws : nws o = [] := by
      rw [← nws_flatten_pyLines o]
      have hlnil : ∀ l ∈ pyLines o, nws l = [] :=
        fun l hmem => (nws_eq_nil_iff l).mpr (hws l hmem)
      have hmapnil : (pyLines o).map nws = (pyLines o).map (fun _ => ([] : Str)) :=
        List.map_congr_left (fun l hmem => hlnil l hmem)
      rw [hmapnil]
      simp
    rw [strip_eq_nil_of_nws_eq_nil hnws]
    simp
  · have hb := sbl_go_bound (pyLines text) [] hl (by simp) o ho
    exact le_trans (strip_length_le o) hb

theorem split_by_lines_nws (text : Str) :
    ((split_by_lines text).map nws).flatten = nws text := by
  unfold split_by_lines
  split
  · simp
  · rw [sbl_go_nws (pyLines text) []]
    simpa [nws] using nws_flatten_pyLines text

/-! ## Lemmas about `fs_go` / `force_split` -/

theorem fs_go_bound :
    ∀ paras current, (∀ p ∈ paras, ∀ l ∈ pyLines p, l.length ≤ MAX_CHUNK_LEN) →
      current.length ≤ MAX_CHUNK_LEN →
      ∀ o ∈ fs_go current paras, (strip o).length ≤ MAX_CHUNK_LEN := by
  intro paras
  induction paras with
  | nil =>
    intro current _ hcur o ho
    simp only [fs_go] at ho
    split at ho
    · simp at ho
    · rcases List.mem_singleton.mp ho with rfl
      exact le_trans (strip_length_le _) (le_trans (strip_length_le current) hcur)
  | cons para rest ih =>
    intro current hp hcur o ho
    have hpara : ∀ l ∈ pyLines para, l.length ≤ MAX_CHUNK_LEN :=
      hp para (List.mem_cons_self ..)
    have hrest : ∀ p ∈ rest, ∀ l ∈ pyLines p, l.length ≤ MAX_CHUNK_LEN :=
      fun p h => hp p (List.mem_cons_of_mem _ h)
    simp only [fs_go] at ho
    split at ho
    · rcases List.mem_append.mp ho with h1 | h2
      · rcases List.mem_append.mp h1 with h3 | h4
        · split at h3
          · simp at h3
          · rcases List.mem_singleton.mp h3 with rfl
            exact le_trans (strip_length_le _) (le_trans (strip_length_le current) hcur)
        · exact split_by_lines_bound hpara o h4
      · exact ih [] hrest (by simp) o h2
    · rename_i hb1
      split at ho
      · rcases List.mem_cons.mp ho with rfl | h2
        · exact le_trans (strip_length_le _) (le_trans (strip_length_le current) hcur)
        · exact ih para hrest (by omega) o h2
      · rename_i hb2
        by_cases he : current.isEmpty
        · rw [if_pos he] at ho
          exact ih para hrest (by omega) o ho
        · rw [if_neg he] at ho
          have hcond2 : ¬ MAX_CHUNK_LEN < current.length + para.length + 2 := by
            intro hlt
            exact hb2 (by simp [hlt, he])
          have hlen : (current ++ '\n' :: '\n' :: para).length
              = current.length + para.length + 2 := by
            rw [List.length_append, List.length_cons, List.length_cons]; omega
          exact ih _ hrest (by omega) o ho

theorem fs_go_nws :
    ∀ paras current, ((fs_go current paras).map nws).flatten
      = nws current ++ (paras.map nws).flatten := by
  intro paras
  induction paras with
  | nil =>
    intro current
    simp only [fs_go]
    split
    · rename_i he
      have h0 : strip current = [] := by simpa [List.isEmpty_iff] using he
      have h1 : nws current = [] := by rw [← nws_strip, h0]; rfl
      simp [h1]
    · simp [nws_strip]
  | cons para rest ih =>
    intro current
    simp only [fs_go]
    split
    · have hflush : (((if (strip current).isEmpty then ([] : List Str)
          else [strip current]).map nws)).flatten = nws current := by
        split
        · rename_i he
          have h0 : strip current = [] := by simpa [List.isEmpty_iff] using he
          have h1 : nws current = [] := by rw [← nws_strip, h0]; rfl
          simp [h1]
        · simp [nws_strip]
      rw [List.map_append, List.map_append, List.flatten_append, List.flatten_append]
      rw [hflush, split_by_lines_nws para, ih []]
      simp [nws]
    · split
      · simp [List.flatten_cons, ih para, nws_strip]
      · by_cases he : current.isEmpty
        · rw [if_pos he]
          have h0 : current = [] := by simpa [List.isEmpty_iff] using he
          subst h0
          simp [ih para, nws]
        · rw [if_neg he, ih _, nws_append, nws_cons, nws_cons]
          simp [isWS]

theorem fs_go_empty_allWS :
    ∀ paras current, fs_go current paras = [] →
      (∀ c ∈ current, isWS c = true) ∧ ∀ p ∈ paras, ∀ c ∈ p, isWS c = true := by
  intro paras
  induction paras with
  | nil =>
    intro current h
    simp only [fs_go] at h
    split at h
    · rename_i he
      have h0 : strip current = [] := by simpa [List.isEmpty_iff] using he
      exact ⟨(strip_eq_nil_iff current).mp h0, by simp⟩
    · simp at h
  | cons para rest ih =>
    intro current h
    simp only [fs_go] at h
    split at h
    · exfalso
      rcases List.append_eq_nil.mp h with ⟨h1, _⟩
      rcases List.append_eq_nil.mp h1 with ⟨_, h3⟩
      exact split_by_lines_ne_nil para h3
    · split at h
      · simp at h
      · by_cases he : current.isEmpty
        · rw [if_pos he] at h
          have h0 : current = [] := by simpa [List.isEmpty_iff] using he
          subst h0
          obtain ⟨h1, h2⟩ := ih para h
          refine ⟨by simp, ?_⟩
          intro p hp
          rcases List.mem_cons.mp hp with rfl | hp2
          · exact h1
          · exact h2 p hp2
        · rw [if_neg he] at h
          obtain ⟨h1, h2⟩ := ih _ h
          have hcur : ∀ c ∈ current, isWS c = true :=
            fun c hc => h1 c (List.mem_append.mpr (Or.inl hc))
          have hpara : ∀ c ∈ para, isWS c = true := fun c hc =>
            h1 c (List.mem_append.mpr (Or.inr
              (List.mem_cons_of_mem _ (List.mem_cons_of_mem _ hc))))
          refine ⟨hcur, ?_⟩
          intro p hp
          rcases List.mem_cons.mp hp with rfl | hp2
          · exact hpara
          · exact h2 p hp2

theorem force_split_ne_nil (text : Str) : force_split text ≠ [] := by
  unfold force_split
  split
  · simp
  · rename_i hne
    simpa using hne

theorem force_split_bound {text : Str}
    (hl : ∀ l ∈ pyLines text, l.length ≤ MAX_CHUNK_LEN) :
    ∀ o ∈ force_split text, (strip o).length ≤ MAX_CHUNK_LEN := by
  have hp : ∀ p ∈ splitParas text, ∀ l ∈ pyLines p, l.length ≤ MAX_CHUNK_LEN := by
    intro p hpmem l hlmem
    have hinf : l <:+: text :=
      (mem_splitP_infixOf _ p hlmem).trans (mem_splitParas_infixOf hpmem)
    exact infix_nosep_length_le hl hinf (mem_splitP_noSep _ p hlmem)
  intro o ho
  unfold force_split at ho
  split at ho
  · rename_i hnil
    rcases List.mem_singleton.mp ho with rfl
    obtain ⟨_, hws⟩ := fs_go_empty_allWS (splitParas o) [] hnil
    have hnws : nws o = [] := by
      rw [← nws_flatten_splitParas o]
      have hlnil : ∀ p ∈ splitParas o, nws p = [] :=
        fun p hmem => (nws_eq_nil_iff p).mpr (hws p hmem)
      have hmapnil : (splitParas o).map nws = (splitParas o).map (fun _ => ([] : Str)) :=
        List.map_congr_left (fun p hmem => hlnil p hmem)
      rw [hmapnil]
      simp
    rw [strip_eq_nil_of_nws_eq_nil hnws]
    simp
  · exact fs_go_bound (splitParas text) [] hp (by simp) o ho

theorem force_split_nws (text : Str) :
    ((force_split text).map nws).flatten = nws text := by
  unfold force_split
  split
  · simp
  · rw [fs_go_nws (splitParas text) []]
    simpa [nws] using nws_flatten_splitParas text

/-! ## Lemmas about `optJoinMap` and `split_chunk_fuel` -/

theorem optJoinMap_isSome {f : Str → Option (List Str)} :
    ∀ ps : List Str, (∀ p ∈ ps, (f p).isSome) → (optJoinMap f ps).isSome := by
  intro ps
  induction ps with
  | nil => intro _; simp [optJoinMap]
  | cons p rest ih =>
    intro h
    obtain ⟨a, ha⟩ := Option.isSome_iff_exists.mp (h p (List.mem_cons_self ..))
    obtain ⟨b, hb⟩ := Option.isSome_iff_exists.mp
      (ih (fun q hq => h q (List.mem_cons_of_mem _ hq)))
    simp [optJoinMap, ha, hb]

theorem optJoinMap_mem {f : Str → Option (List Str)} :
    ∀ (ps out : List Str), optJoinMap f ps = some out →
      ∀ o ∈ out, ∃ p ∈ ps, ∃ l, f p = some l ∧ o ∈ l := by
  intro ps
  induction ps with
  | nil =>
    intro out hout o ho
    simp only [optJoinMap, Option.some.injEq] at hout
    subst hout
    simp at ho
  | cons p rest ih =>
    intro out hout o ho
    simp only [optJoinMap] at hout
    cases hfp : f p with
    | none => rw [hfp] at hout; simp at hout
    | some a =>
      rw [hfp] at hout
      cases hrec : optJoinMap f rest with
      | none => rw [hrec] at hout; simp at hout
      | some b =>
        rw [hrec] at hout
        simp only [Option.some.injEq] at hout
        subst hout
        rcases List.mem_append.mp ho with h1 | h2
        · exact ⟨p, List.mem_cons_self .., a, hfp, h1⟩
        · obtain ⟨q, hq, l, hl, hol⟩ := ih b hrec o h2
          exact ⟨q, List.mem_cons_of_mem _ hq, l, hl, hol⟩

theorem optJoinMap_nws {f : Str → Option (List Str)} :
    ∀ (ps out : List Str), optJoinMap f ps = some out →
      (∀ p ∈ ps, ∀ l, f p = some l → (l.map nws).flatten = nws p) →
      (out.map nws).flatten = ((ps.map nws)).flatten := by
  intro ps
  induction ps with
  | nil =>
    intro out hout _
    simp only [optJoinMap, Option.some.injEq] at hout
    subst hout
    rfl
  | cons p rest ih =>
    intro out hout hin
    simp only [optJoinMap] at hout
    cases hfp : f p with
    | none => rw [hfp] at hout; simp at hout
    | some a =>
      rw [hfp] at hout
      cases hrec : optJoinMap f rest with
      | none => rw [hrec] at hout; simp at hout
      | some b =>
        rw [hrec] at hout
        simp only [Option.some.injEq] at hout
        subst hout
        rw [List.map_append, List.flatten_append]
        rw [hin p (List.mem_cons_self ..) a hfp]
        rw [ih b hrec (fun q hq => hin q (List.mem_cons_of_mem _ hq))]
        simp

theorem optJoinMap_ne_nil {f : Str → Option (List Str)} :
    ∀ (ps out : List Str), optJoinMap f ps = some out → ps ≠ [] →
      (∀ p ∈ ps, ∀ l, f p = some l → l ≠ []) → out ≠ [] := by
  intro ps
  cases ps with
  | nil => intro out _ h; exact absurd rfl h
  | cons p rest =>
    intro out hout _ hin
    simp only [optJoinMap] at hout
    cases hfp : f p with
    | none => rw [hfp] at hout; simp at hout
    | some a =>
      rw [hfp] at hout
      cases hrec : optJoinMap f rest with
      | none => rw [hrec] at hout; simp at hout
      | some b =>
        rw [hrec] at hout
        simp only [Option.some.injEq] at hout
        subst hout
        have ha : a ≠ [] := hin p (List.mem_cons_self ..) a hfp
        simp [ha]

theorem split_chunk_fuel_isSome :
    ∀ fuel text, text.length < fuel → (split_chunk_fuel fuel text).isSome := by
  intro fuel
  induction fuel with
  | zero => intro text h; omega
  | succ fuel ih =>
    intro text h
    show (split_chunk_step (split_chunk_fuel fuel) text).isSome
    unfold split_chunk_step
    by_cases h1 : text.length ≤ MAX_CHUNK_LEN
    · simp [h1]
    · rw [if_neg h1]
      by_cases h2 : 1 < (split_by_pattern H2_PATTERN text).length
      · rw [if_pos h2]
        refine optJoinMap_isSome _ (fun p hp => ih p ?_)
        have := split_by_pattern_parts_lt h2 p hp
        omega
      · rw [if_neg h2]
        by_cases h3 : 1 < (split_by_pattern H3_PATTERN text).length
        · rw [if_pos h3]
          refine optJoinMap_isSome _ (fun p hp => ih p ?_)
          have := split_by_pattern_parts_lt h3 p hp
          omega
        · rw [if_neg h3]
          by_cases h4 : MAX_CHUNK_LEN < text.length
          · simp [h4]
          · simp [h4]

theorem split_chunk_fuel_nws :
    ∀ fuel text out, split_chunk_fuel fuel text = some out →
      (out.map nws).flatten = nws text := by
  intro fuel
  induction fuel with
  | zero => intro text out h; simp [split_chunk_fuel] at h
  | succ fuel ih =>
    intro text out h
    replace h : split_chunk_step (split_chunk_fuel fuel) text = some out := h
    unfold split_chunk_step at h
    by_cases h1 : text.length ≤ MAX_CHUNK_LEN
    · rw [if_pos h1] at h
      simp only [Option.some.injEq] at h
      subst h
      simp
    · rw [if_neg h1] at h
      by_cases h2 : 1 < (split_by_pattern H2_PATTERN text).length
      · rw [if_pos h2] at h
        rw [optJoinMap_nws _ out h (fun p _ l hl => ih p l hl)]
        exact nws_flatten_split_by_pattern H2_PATTERN text
      · rw [if_neg h2] at h
        by_cases h3 : 1 < (split_by_pattern H3_PATTERN text).length
        · rw [if_pos h3] at h
          rw [optJoinMap_nws _ out h (fun p _ l hl => ih p l hl)]
          exact nws_flatten_split_by_pattern H3_PATTERN text
        · rw [if_neg h3] at h
          by_cases h4 : MAX_CHUNK_LEN < text.length
          · rw [if_pos h4] at h
            simp only [Option.some.injEq] at h
            subst h
            exact force_split_nws text
          · rw [if_neg h4] at h
            simp only [Option.some.injEq] at h
            subst h
            simp

theorem split_chunk_fuel_bound :
    ∀ fuel text out, (∀ l ∈ pyLines text, l.length ≤ MAX_CHUNK_LEN) →
      split_chunk_fuel fuel text = some out →
      ∀ o ∈ out, (strip o).length ≤ MAX_CHUNK_LEN := by
  intro fuel
  induction fuel with
  | zero => intro text out _ h; simp [split_chunk_fuel] at h
  | succ fuel ih =>
    intro text out hl h
    replace h : split_chunk_step (split_chunk_fuel fuel) text = some out := h
    unfold split_chunk_step at h
    have hsub : ∀ pat (p : Str), p ∈ split_by_pattern pat text →
        ∀ l ∈ pyLines p, l.length ≤ MAX_CHUNK_LEN := by
      intro pat p hp l hlm
      have hinf : l <:+: text :=
        (mem_splitP_infixOf _ p hlm).trans (mem_split_by_pattern_infixOf hp)
      exact infix_nosep_length_le hl hinf (mem_splitP_noSep _ p hlm)
    by_cases h1 : text.length ≤ MAX_CHUNK_LEN
    · rw [if_pos h1] at h
      simp only [Option.some.injEq] at h
      subst h
      intro o ho
      rcases List.mem_singleton.mp ho with rfl
      exact le_trans (strip_length_le o) h1
    · rw [if_neg h1] at h
      by_cases h2 : 1 < (split_by_pattern H2_PATTERN text).length
      · rw [if_pos h2] at h
        intro o ho
        obtain ⟨p, hp, l, hfl, hol⟩ := optJoinMap_mem _ out h o ho
        exact ih p l (hsub H2_PATTERN p hp) hfl o hol
      · rw [if_neg h2] at h
        by_cases h3 : 1 < (split_by_pattern H3_PATTERN text).length
        · rw [if_pos h3] at h
          intro o ho
          obtain ⟨p, hp, l, hfl, hol⟩ := optJoinMap_mem _ out h o ho
          exact ih p l (hsub H3_PATTERN p hp) hfl o hol
        · rw [if_neg h3] at h
          by_cases h4 : MAX_CHUNK_LEN < text.length
          · rw [if_pos h4] at h
            simp only [Option.some.injEq] at h
            subst h
            exact force_split_bound hl
          · rw [if_neg h4] at h
            simp only [Option.some.injEq] at h
            subst h
            intro o ho
            rcases List.mem_singleton.mp ho with rfl
            exact le_trans (strip_length_le o) (by omega)

theorem split_chunk_fuel_ne_nil :
    ∀ fuel text out, split_chunk_fuel fuel text = some out → out ≠ [] := by
  intro fuel
  induction fuel with
  | zero => intro text out h; simp [split_chunk_fuel] at h
  | succ fuel ih =>
    intro text out h
    replace h : split_chunk_step (split_chunk_fuel fuel) text = some out := h
    unfold split_chunk_step at h
    by_cases h1 : text.length ≤ MAX_CHUNK_LEN
    · rw [if_pos h1] at h
      simp only [Option.some.injEq] at h
      subst h
      simp
    · rw [if_neg h1] at h
      by_cases h2 : 1 < (split_by_pattern H2_PATTERN text).length
      · rw [if_pos h2] at h
        exact optJoinMap_ne_nil _ out h
          (by intro hnil; rw [hnil] at h2; simp at h2)
          (fun p _ l hl => ih p l hl)
      · rw [if_neg h2] at h
        by_cases h3 : 1 < (split_by_pattern H3_PATTERN text).length
        · rw [if_pos h3] at h
          exact optJoinMap_ne_nil _ out h
            (by intro hnil; rw [hnil] at h3; simp at h3)
            (fun p _ l hl => ih p l hl)
        · rw [if_neg h3] at h
          by_cases h4 : MAX_CHUNK_LEN < text.length
          · rw [if_pos h4] at h
            simp only [Option.some.injEq] at h
            subst h
            exact force_split_ne_nil text
          · rw [if_neg h4] at h
            simp only [Option.some.injEq] at h
            subst h
            simp

theorem split_chunk_fuel_spec (text : Str) :
    split_chunk_fuel (text.length + 1) text = some (split_chunk text) := by
  obtain ⟨out, hout⟩ := Option.isSome_iff_exists.mp
    (split_chunk_fuel_isSome (text.length + 1) text (by omega))
  simp [split_chunk, hout]

theorem split_chunk_nws (text : Str) :
    ((split_chunk text).map nws).flatten = nws text :=
  split_chunk_fuel_nws (text.length + 1) text (split_chunk text)
    (split_chunk_fuel_spec text)

theorem split_chunk_bound {text : Str}
    (hl : ∀ l ∈ pyLines text, l.length ≤ MAX_CHUNK_LEN) :
    ∀ o ∈ split_chunk text, (strip o).length ≤ MAX_CHUNK_LEN :=
  split_chunk_fuel_bound (text.length + 1) text (split_chunk text) hl
    (split_chunk_fuel_spec text)

theorem split_chunk_ne_nil (text : Str) : split_chunk text ≠ [] :=
  split_chunk_fuel_ne_nil (text.length + 1) text (split_chunk text)
    (split_chunk_fuel_spec text)

/-! ## `chunk_document`: membership, bound, coverage -/

theorem mem_chunk_document {doc : Document} {f : Fragment} :
    f ∈ chunk_document doc ↔ ∃ part ∈ split_by_pattern H1_PATTERN doc.content,
      ∃ sp ∈ split_chunk part,
        f = { source := doc.source, url := doc.url,
              header := extract_header sp, content := strip sp } := by
  simp only [chunk_document, List.mem_flatten, List.mem_map]
  constructor
  · rintro ⟨l, ⟨part, hpart, rfl⟩, hf⟩
    obtain ⟨sp, hsp, rfl⟩ := List.mem_map.mp hf
    exact ⟨part, hpart, sp, hsp, rfl⟩
  · rintro ⟨part, hpart, sp, hsp, rfl⟩
    exact ⟨_, ⟨part, hpart, rfl⟩, List.mem_map.mpr ⟨sp, hsp, rfl⟩⟩

theorem pyLines_bound_of_infixOf {t s : Str}
    (h : ∀ l ∈ pyLines s, l.length ≤ MAX_CHUNK_LEN) (hinf : t <:+: s) :
    ∀ l ∈ pyLines t, l.length ≤ MAX_CHUNK_LEN := by
  intro l hl
  exact infix_nosep_length_le h ((mem_splitP_infixOf _ t hl).trans hinf)
    (mem_splitP_noSep _ t hl)

theorem chunk_document_inner_nws (doc : Document) (part : Str) :
    ((((split_chunk part).map (fun sp =>
        ({ source := doc.source, url := doc.url, header := extract_header sp,
           content := strip sp } : Fragment))).map (fun f => f.content)).map nws).flatten
      = nws part := by
  rw [List.map_map, List.map_map]
  have hcongr : (split_chunk part).map
      ((nws ∘ fun f : Fragment => f.content) ∘ (fun sp =>
        ({ source := doc.source, url := doc.url, header := extract_header sp,
           content := strip sp } : Fragment)))
      = (split_chunk part).map nws := by
    apply List.map_congr_left
    intro sp _
    simp [Function.comp, nws_strip]
  rw [hcongr, split_chunk_nws part]

theorem chunk_document_nws (doc : Document) :
    nws (((chunk_document doc).map (fun f => f.content)).flatten) = nws doc.content := by
  rw [nws_flatten]
  have hgen : ∀ parts : List Str,
      ((((parts.map (fun part => (split_chunk part).map (fun sp =>
          ({ source := doc.source, url := doc.url, header := extract_header sp,
             content := strip sp } : Fragment)))).flatten).map
          (fun f => f.content)).map nws).flatten
        = ((parts.map nws)).flatten := by
    intro parts
    induction parts with
    | nil => rfl
    | cons part rest ih =>
      simp only [List.map_cons, List.flatten_cons, List.map_append, List.flatten_append]
      rw [ih, chunk_document_inner_nws doc part]
  show ((((chunk_document doc)).map (fun f => f.content)).map nws).flatten = nws doc.content
  unfold chunk_document
  rw [hgen (split_by_pattern H1_PATTERN doc.content)]
  exact nws_flatten_split_by_pattern H1_PATTERN doc.content

theorem splitRawAux_noMatch {pat : Str} {c0 : Char} {pat' : Str}
    (hpat : pat = c0 :: pat') (hc0 : isWS c0 = false) :
    ∀ acc s b, (∀ c ∈ s, isWS c = true) → splitRawAux pat acc s b = [acc.reverse ++ s] := by
  intro acc s b
  induction acc, s, b using splitRawAux.induct pat with
  | case1 acc b => intro _; simp [splitRawAux]
  | case2 acc c rest atStart hcond ih =>
    intro hs
    exfalso
    have hpre : pat.isPrefixOf (c :: rest) = true := by
      rcases Bool.and_eq_true .. |>.mp hcond with ⟨_, h⟩
      exact h
    rw [hpat] at hpre
    simp only [List.isPrefixOf] at hpre
    rcases Bool.and_eq_true .. |>.mp hpre with ⟨heq, _⟩
    have hc0c : c0 = c := eq_of_beq heq
    have hcws : isWS c = true := hs c (List.mem_cons_self ..)
    rw [← hc0c, hc0] at hcws
    exact Bool.false_ne_true hcws
  | case3 acc c rest atStart hcond ih =>
    intro hs
    rw [splitRawAux, if_neg hcond, ih (fun d hd => hs d (List.mem_cons_of_mem _ hd))]
    simp

theorem split_by_pattern_allWS {pat s : Str} {c0 : Char} {pat' : Str}
    (hpat : pat = c0 :: pat') (hc0 : isWS c0 = false)
    (hs : ∀ c ∈ s, isWS c = true) : split_by_pattern pat s = [s] := by
  unfold split_by_pattern
  rw [splitRawAux_noMatch hpat hc0 [] s true hs]

/-! ## Claim theorems for the chunker (C1, C2, C3, C8) -/

/-- C1: for every document whose content contains no single line longer
than `MAX_CHUNK_LEN` (3000), every fragment produced by `chunk_document`
has content of length at most `MAX_CHUNK_LEN`. -/
theorem chunk_document_fragment_bound (doc : Document)
    (h : ∀ l ∈ pyLines doc.content, l.length ≤ MAX_CHUNK_LEN) :
    ∀ f ∈ chunk_document doc, f.content.length ≤ MAX_CHUNK_LEN := by
  intro f hf
  obtain ⟨part, hpart, sp, hsp, rfl⟩ := mem_chunk_document.mp hf
  have hpl : ∀ l ∈ pyLines part, l.length ≤ MAX_CHUNK_LEN :=
    pyLines_bound_of_infixOf h (mem_split_by_pattern_infixOf hpart)
  exact split_chunk_bound hpl sp hsp

/-- Witness for C1 at a concrete document. -/
theorem chunk_document_fragment_bound_witness :
    (∀ l ∈ pyLines ("# A\nhello world".toList), l.length ≤ MAX_CHUNK_LEN)
    ∧ ∀ f ∈ chunk_document ⟨['s'], ['u'], ['t'], "# A\nhello world".toList⟩,
        f.content.length ≤ MAX_CHUNK_LEN :=
  ⟨by decide, chunk_document_fragment_bound
    ⟨['s'], ['u'], ['t'], "# A\nhello world".toList⟩ (by decide)⟩

/-- C2: concatenating the fragment contents of `chunk_document doc` in
emission order reconstructs the document content up to whitespace: the
sequences of non-whitespace characters agree exactly (nothing dropped,
added or reordered). -/
theorem chunk_document_coverage (doc : Document) :
    (((chunk_document doc).map (fun f => f.content)).flatten).filter (fun c => !isWS c)
      = doc.content.filter (fun c => !isWS c) := by
  have h := chunk_document_nws doc
  simpa [nws] using h

/-- C8: the chunk splitter's recursion depth is bounded — a recursion
budget of `text.length + 1` always produces a result (so `_split_chunk`
terminates on every input, including a single unsplittable heading-free
block), and whenever a heading split actually subdivides (more than one
part) every part is strictly shorter than the input, which is the guard
that makes the recursion well-founded. -/
theorem split_chunk_terminates :
    (∀ text : Str, (split_chunk_fuel (text.length + 1) text).isSome = true)
    ∧ ∀ (pat text : Str), 1 < (split_by_pattern pat text).length →
        ∀ p ∈ split_by_pattern pat text, p.length < text.length :=
  ⟨fun text => split_chunk_fuel_isSome (text.length + 1) text (by omega),
   fun _pat _text h2 => split_by_pattern_parts_lt h2⟩

/-- Witness for C8's subdivision clause at a concrete oversplit text. -/
theorem split_chunk_terminates_witness :
    (split_chunk_fuel (("x".toList).length + 1) "x".toList).isSome = true
    ∧ ("## a".toList).length < ("## a\n## b".toList).length :=
  ⟨split_chunk_terminates.1 "x".toList,
   split_chunk_terminates.2 H2_PATTERN "## a\n## b".toList (by decide)
     "## a".toList (by decide)⟩

/-- Counterexample to C3 as stated: the empty document yields one
fragment whose content is empty (so not every fragment is non-empty
after trimming, and an empty document does yield a fragment with empty
content). -/
theorem chunk_document_empty_content_cex :
    ∃ f ∈ chunk_document ⟨['s'], ['u'], ['t'], []⟩, strip f.content = [] := by
  decide

/-- C3 amended: every fragment's content is already trimmed (so trimming
it changes nothing); whitespace-only parts are discarded when a heading
split matches, but an empty or whitespace-only document is not discarded:
it yields at least one fragment, all of whose contents are empty. -/
theorem chunk_document_trimmed_amended :
    (∀ (doc : Document) (f : Fragment), f ∈ chunk_document doc →
      strip f.content = f.content)
    ∧ (∀ doc : Document, (∀ c ∈ doc.content, isWS c = true) →
        chunk_document doc ≠ [] ∧ ∀ f ∈ chunk_document doc, f.content = []) := by
  constructor
  · intro doc f hf
    obtain ⟨part, _, sp, _, rfl⟩ := mem_chunk_document.mp hf
    exact strip_strip sp
  · intro doc hws
    constructor
    · have hsp : split_by_pattern H1_PATTERN doc.content = [doc.content] :=
        split_by_pattern_allWS rfl (by decide) hws
      unfold chunk_document
      rw [hsp]
      simp only [List.map_cons, List.map_nil, List.flatten_cons, List.flatten_nil,
        List.append_nil]
      intro hnil
      have h2 := List.map_eq_nil_iff.mp hnil
      exact split_chunk_ne_nil doc.content h2
    · intro f hf
      obtain ⟨part, hpart, sp, hsp, rfl⟩ := mem_chunk_document.mp hf
      have hpws : ∀ c ∈ part, isWS c = true :=
        fun c hc => hws c ((mem_split_by_pattern_infixOf hpart).subset hc)
      have hnwsp : nws part = [] := (nws_eq_nil_iff part).mpr hpws
      have hfl := split_chunk_nws part
      rw [hnwsp] at hfl
      have hall := List.flatten_eq_nil_iff.mp hfl
      have hnsp : nws sp = [] := hall (nws sp) (List.mem_map.mpr ⟨sp, hsp, rfl⟩)
      exact strip_eq_nil_of_nws_eq_nil hnsp

/-- Witness for the amended C3 at concrete documents. -/
theorem chunk_document_trimmed_amended_witness :
    strip ("hi".toList) = "hi".toList
    ∧ chunk_document ⟨['s'], ['u'], ['t'], [' ']⟩ ≠ [] :=
  ⟨chunk_document_trimmed_amended.1 ⟨['s'], ['u'], ['t'], "hi".toList⟩
      ⟨['s'], ['u'], [], "hi".toList⟩ (by decide),
   (chunk_document_trimmed_amended.2 ⟨['s'], ['u'], ['t'], [' ']⟩ (by decide)).1⟩

/-! ## searcher.py -/

/-- A search result entry as built by `search`:
`{source, url, header, content, match_count, match_ratio}`. -/
structure RankedResult where
  source : Str
  url : Str
  header : Str
  content : Str
  match_count : Nat
  match_ratio : ℚ
deriving DecidableEq, Repr

/-- `MAX_RESULTS = 10` from `searcher.py` (the default `max_results`). -/
def MAX_RESULTS : Nat := 10

/-- The searchable text of a chunk: `(header + " " + content).lower()`. -/
def searchableText (header content : Str) : Str := toLower (header ++ ' ' :: content)

/-- The loop body of `search`: score one chunk against the keyword list
(count of keywords contained as substrings, Python `kw in searchable`). -/
def scoreChunk (keywords : List Str) (c : Fragment) : RankedResult :=
  { source := c.source, url := c.url, header := c.header, content := c.content,
    match_count := (keywords.filter (fun kw =>
      containsSub kw (searchableText c.header c.content))).length,
    match_ratio := ((keywords.filter (fun kw =>
      containsSub kw (searchableText c.header c.content))).length : ℚ)
        / (keywords.length : ℚ) }

/-- The candidate list after the `source` filter; `if source:` is a
Python truthiness test, so `None` and the empty string both skip it. -/
def searchCandidates (chunks : List Fragment) (source : Option Str) : List Fragment :=
  match source with
  | none => chunks
  | some s => if s.isEmpty then chunks else chunks.filter (fun c => decide (c.source = s))

/-- The scored candidates of `search` in input order, keeping only
entries with at least one matched keyword. -/
def searchScored (chunks : List Fragment) (query : Str) (source : Option Str) :
    List RankedResult :=
  ((searchCandidates chunks source).map (scoreChunk (pySplitWS (toLower query)))).filter
    (fun e => decide (0 < e.match_count))

/-- Stable insertion: `x` is placed before the first `y` with `le x y`. -/
def insertLe {α : Type} (le : α → α → Bool) (x : α) : List α → List α
  | [] => [x]
  | y :: ys => if le x y then x :: y :: ys else y :: insertLe le x ys

/-- Stable insertion sort — the model of Python's stable `list.sort`:
an element that comes earlier in the input is placed before every
later element it compares `le`-equal to. -/
def isort {α : Type} (le : α → α → Bool) : List α → List α
  | [] => []
  | x :: xs => insertLe le x (isort le xs)

/-- The comparison induced by Python's sort key `-match_count`
(descending match count, stable on ties). -/
def countLe (a b : RankedResult) : Bool := decide (b.match_count ≤ a.match_count)

/-- `search(chunks, query, source, max_results)` from `searcher.py`:
tokenize, filter by source, score, partition into the exact tier
(`match_count == len(keywords)`) and the partial tier, sort each tier by
descending match count (stably), concatenate and truncate. -/
def search (chunks : List Fragment) (query : Str) (source : Option Str)
    (max_results : Nat) : List RankedResult :=
  if (pySplitWS (toLower query)).isEmpty then []
  else
    ((isort countLe ((searchScored chunks query source).filter
        (fun e => decide (e.match_count = (pySplitWS (toLower query)).length)))) ++
     (isort countLe ((searchScored chunks query source).filter
        (fun e => !decide (e.match_count = (pySplitWS (toLower query)).length))))).take
      max_results

/-! ## icons.py -/

/-- A catalog item `{name, type, src}` (the fields read by
`search_icon_catalog` after `str(...)` coercion). -/
structure IconItem where
  name : Str
  type : Str
  src : Str
deriving DecidableEq, Repr

/-- A catalog search result entry. -/
structure IconResult where
  name : Str
  type : Str
  src : Str
  match_count : Nat
  match_ratio : ℚ
deriving DecidableEq, Repr

/-- `MAX_ICON_RESULTS = 10` from `icons.py`. -/
def MAX_ICON_RESULTS : Nat := 10

/-- `SUPPORTED_ICON_TYPES` from `icons.py`. -/
def SUPPORTED_ICON_TYPES : List Str :=
  ["icon-*".toList, "icn-*".toList, "emoji/image".toList]

/-- Python string `<` (lexicographic by code point). -/
def strLt : Str → Str → Bool
  | [], [] => false
  | [], _ :: _ => true
  | _ :: _, [] => false
  | a :: s, b :: t => decide (a < b) || (decide (a = b) && strLt s t)

/-- Python string `≤`, as used by tuple sort keys. -/
def strLe (x y : Str) : Bool := !strLt y x

/-- The comparison induced by the sort key `(-match_count, name)` of
`search_icon_catalog`. -/
def iconLe (a b : IconResult) : Bool :=
  decide (b.match_count < a.match_count)
    || (decide (a.match_count = b.match_count) && strLe a.name b.name)

/-- `icon_type.lower() if icon_type else None` (empty string is falsy). -/
def normType (icon_type : Option Str) : Option Str :=
  match icon_type with
  | none => none
  | some t => if t.isEmpty then none else some (toLower t)

/-- The searchable text of a catalog item: `f"{name} {type} {src}".lower()`. -/
def iconSearchable (it : IconItem) : Str :=
  toLower (it.name ++ ' ' :: (it.type ++ ' ' :: it.src))

/-- Score one catalog item against the keyword list. -/
def scoreIcon (keywords : List Str) (it : IconItem) : IconResult :=
  { name := it.name, type := it.type, src := it.src,
    match_count := (keywords.filter (fun kw =>
      containsSub kw (iconSearchable it))).length,
    match_ratio := ((keywords.filter (fun kw =>
      containsSub kw (iconSearchable it))).length : ℚ) / (keywords.length : ℚ) }

/-- The items surviving the normalized type filter. -/
def iconCandidates (items : List IconItem) (normalized : Option Str) : List IconItem :=
  match normalized with
  | none => items
  | some nt => items.filter (fun it => decide (toLower it.type = nt))

/-- The scored catalog items of `search_icon_catalog` in input order,
keeping only positive matches. -/
def iconScored (items : List IconItem) (query : Str) (icon_type : Option Str) :
    List IconResult :=
  ((iconCandidates items (normType icon_type)).map
    (scoreIcon (pySplitWS (toLower query)))).filter (fun e => decide (0 < e.match_count))

/-- `search_icon_catalog(items, query, icon_type, max_results)` from
`icons.py`: like `search` but over catalog items, with a type filter and
the sort key `(-match_count, name)` on both tiers. -/
def search_icon_catalog (items : List IconItem) (query : Str) (icon_type : Option Str)
    (max_results : Nat) : List IconResult :=
  if (pySplitWS (toLower query)).isEmpty then []
  else
    ((isort iconLe ((iconScored items query icon_type).filter
        (fun e => decide (e.match_count = (pySplitWS (toLower query)).length)))) ++
     (isort iconLe ((iconScored items query icon_type).filter
        (fun e => !decide (e.match_count = (pySplitWS (toLower query)).length))))).take
      max_results

/-! ## Lemmas about stable insertion sort -/

theorem mem_insertLe {α : Type} {le : α → α → Bool} {x : α} :
    ∀ (l : List α) (y : α), y ∈ insertLe le x l ↔ y = x ∨ y ∈ l := by
  intro l
  induction l with
  | nil => intro y; simp [insertLe]
  | cons z zs ih =>
    intro y
    simp only [insertLe]
    split
    · simp only [List.mem_cons]
    · simp only [List.mem_cons, ih y]
      tauto

theorem mem_isort {α : Type} {le : α → α → Bool} :
    ∀ (l : List α) (y : α), y ∈ isort le l ↔ y ∈ l := by
  intro l
  induction l with
  | nil => intro y; simp [isort]
  | cons x xs ih =>
    intro y
    show y ∈ insertLe le x (isort le xs) ↔ y ∈ x :: xs
    rw [mem_insertLe (isort le xs) y]
    simp only [List.mem_cons, ih y]

theorem insertLe_pairwise {α : Type} {le : α → α → Bool}
    (htot : ∀ a b, le a b = true ∨ le b a = true)
    (htr : ∀ a b c, le a b = true → le b c = true → le a c = true) (x : α) :
    ∀ l : List α, l.Pairwise (fun a b => le a b = true) →
      (insertLe le x l).Pairwise (fun a b => le a b = true) := by
  intro l
  induction l with
  | nil => intro _; simp [insertLe]
  | cons y ys ih =>
    intro hl
    rcases List.pairwise_cons.mp hl with ⟨hy, hys⟩
    simp only [insertLe]
    split
    · rename_i hxy
      refine List.pairwise_cons.mpr ⟨?_, hl⟩
      intro z hz
      rcases List.mem_cons.mp hz with rfl | hz2
      · exact hxy
      · exact htr x y z hxy (hy z hz2)
    · rename_i hxy
      refine List.pairwise_cons.mpr ⟨?_, ih hys⟩
      intro z hz
      rcases (mem_insertLe ys z).mp hz with heq | hz2
      · rw [heq]
        rcases htot x y with h | h
        · exact absurd h hxy
        · exact h
      · exact hy z hz2

theorem isort_pairwise {α : Type} {le : α → α → Bool}
    (htot : ∀ a b, le a b = true ∨ le b a = true)
    (htr : ∀ a b c, le a b = true → le b c = true → le a c = true) :
    ∀ l : List α, (isort le l).Pairwise (fun a b => le a b = true) := by
  intro l
  induction l with
  | nil => simp [isort]
  | cons x xs ih => exact insertLe_pairwise htot htr x (isort le xs) ih

theorem insertLe_filter {α : Type} {le : α → α → Bool} {p : α → Bool}
    (hcls : ∀ a b, p a = true → p b = true → le a b = true) (x : α) :
    ∀ l : List α, (insertLe le x l).filter p
      = if p x then x :: l.filter p else l.filter p := by
  intro l
  induction l with
  | nil =>
    show List.filter p [x] = if p x then x :: List.filter p [] else List.filter p []
    rw [List.filter_cons]
  | cons y ys ih =>
    simp only [insertLe]
    split
    · rw [List.filter_cons]
    · rename_i hxy
      rw [List.filter_cons, List.filter_cons]
      by_cases hpy : p y
      · have hpx : p x = false := by
          cases hpx : p x
          · rfl
          · exact absurd (hcls x y hpx hpy) (by simpa using hxy)
        simp only [hpy, if_pos rfl, hpx]
        rw [ih]
        simp [hpx]
      · have hpy2 : p y = false := by simpa using hpy
        simp only [hpy2]
        rw [ih]
        by_cases hpx : p x <;> simp [hpx]

theorem isort_filter {α : Type} {le : α → α → Bool} {p : α → Bool}
    (hcls : ∀ a b, p a = true → p b = true → le a b = true) :
    ∀ l : List α, (isort le l).filter p = l.filter p := by
  intro l
  induction l with
  | nil => rfl
  | cons x xs ih =>
    show (insertLe le x (isort le xs)).filter p = (x :: xs).filter p
    rw [insertLe_filter hcls x (isort le xs), ih, List.filter_cons]

theorem filter_take_pre {α : Type} (l : List α) (n : Nat) (p : α → Bool) :
    (l.take n).filter p <+: l.filter p := by
  conv_rhs => rw [← List.take_append_drop n l]
  rw [List.filter_append]
  exact List.prefix_append ..

/-! ## Lemmas about Python string order `strLt` / `strLe` -/

theorem strLt_irrefl : ∀ s : Str, strLt s s = false := by
  intro s
  induction s with
  | nil => rfl
  | cons a s ih => simp [strLt, ih]

theorem strLt_asymm : ∀ x y : Str, strLt x y = true → strLt y x = false := by
  intro x
  induction x with
  | nil => intro y _; cases y <;> rfl
  | cons a s ih =>
    intro y h
    cases y with
    | nil => simp [strLt] at h
    | cons b t =>
      simp only [strLt, Bool.or_eq_true, Bool.and_eq_true, decide_eq_true_eq] at h ⊢
      rcases h with h | ⟨rfl, h2⟩
      · simp only [Bool.or_eq_false_iff, Bool.and_eq_false_iff]
        constructor
        · simp [not_lt_of_gt h, le_of_lt h]
        · left
          simp [ne_of_gt h]
      · simp [lt_irrefl, ih t h2]

theorem strLt_trans : ∀ x y z : Str, strLt x y = true → strLt y z = true →
    strLt x z = true := by
  intro x
  induction x with
  | nil =>
    intro y z h1 h2
    cases y with
    | nil => simp [strLt] at h1
    | cons b t =>
      cases z with
      | nil => simp [strLt] at h2
      | cons c u => rfl
  | cons a s ih =>
    intro y z h1 h2
    cases y with
    | nil => simp [strLt] at h1
    | cons b t =>
      cases z with
      | nil => simp [strLt] at h2
      | cons c u =>
        simp only [strLt, Bool.or_eq_true, Bool.and_eq_true, decide_eq_true_eq] at h1 h2 ⊢
        rcases h1 with h1 | ⟨rfl, h1'⟩
        · rcases h2 with h2 | ⟨rfl, h2'⟩
          · exact Or.inl (lt_trans h1 h2)
          · exact Or.inl h1
        · rcases h2 with h2 | ⟨rfl, h2'⟩
          · exact Or.inl h2
          · exact Or.inr ⟨rfl, ih t u h1' h2'⟩

theorem strLt_eq_of_not : ∀ x y : Str, strLt x y = false → strLt y x = false →
    x = y := by
  intro x
  induction x with
  | nil =>
    intro y h1 _
    cases y with
    | nil => rfl
    | cons b t => simp [strLt] at h1
  | cons a s ih =>
    intro y h1 h2
    cases y with
    | nil => simp [strLt] at h2
    | cons b t =>
      simp only [strLt, Bool.or_eq_false_iff, Bool.and_eq_false_iff,
        decide_eq_false_iff_not] at h1 h2
      obtain ⟨hab, h1'⟩ := h1
      obtain ⟨hba, h2'⟩ := h2
      have hab2 : a = b := le_antisymm (not_lt.mp hba) (not_lt.mp hab)
      subst hab2
      rcases h1' with h1' | h1'
      · exact absurd rfl h1'
      · rcases h2' with h2' | h2'
        · exact absurd rfl h2'
        · rw [ih t h1' h2']

theorem strLe_total : ∀ x y : Str, strLe x y = true ∨ strLe y x = true := by
  intro x y
  unfold strLe
  cases h1 : strLt y x
  · left; rfl
  · right
    rw [strLt_asymm y x h1]
    rfl

theorem strLe_trans : ∀ x y z : Str, strLe x y = true → strLe y z = true →
    strLe x z = true := by
  intro x y z h1 h2
  unfold strLe at h1 h2 ⊢
  rw [Bool.not_eq_true'] at h1 h2 ⊢
  cases h3 : strLt z x
  · rfl
  · exfalso
    cases h4 : strLt y z
    · have := strLt_eq_of_not y z h4 h2
      subst this
      rw [h3] at h1
      simp at h1
    · have h5 := strLt_trans y z x h4 h3
      rw [h5] at h1
      simp at h1

theorem strLe_refl (x : Str) : strLe x x = true := by
  unfold strLe
  rw [strLt_irrefl x]
  rfl

/-! ## Properties of the two comparison keys -/

theorem countLe_total (a b : RankedResult) : countLe a b = true ∨ countLe b a = true := by
  unfold countLe
  rcases Nat.le_total b.match_count a.match_count with h | h
  · left; simpa using h
  · right; simpa using h

theorem countLe_trans (a b c : RankedResult) :
    countLe a b = true → countLe b c = true → countLe a c = true := by
  unfold countLe
  intro h1 h2
  simp only [decide_eq_true_eq] at h1 h2 ⊢
  omega

theorem iconLe_total (a b : IconResult) : iconLe a b = true ∨ iconLe b a = true := by
  unfold iconLe
  rcases Nat.lt_trichotomy a.match_count b.match_count with h | h | h
  · right; simp [h]
  · rcases strLe_total a.name b.name with h2 | h2
    · left; simp [h, h2]
    · right; simp [h, h2]
  · left; simp [h]

theorem iconLe_trans (a b c : IconResult) :
    iconLe a b = true → iconLe b c = true → iconLe a c = true := by
  unfold iconLe
  intro h1 h2
  simp only [Bool.or_eq_true, Bool.and_eq_true, decide_eq_true_eq] at h1 h2 ⊢
  rcases h1 with h1 | ⟨he1, hn1⟩
  · rcases h2 with h2 | ⟨he2, hn2⟩
    · left; omega
    · left; omega
  · rcases h2 with h2 | ⟨he2, hn2⟩
    · left; omega
    · right; exact ⟨by omega, strLe_trans a.name b.name c.name hn1 hn2⟩

theorem iconLe_iff (a b : IconResult) :
    iconLe a b = true ↔ (b.match_count < a.match_count
      ∨ (a.match_count = b.match_count ∧ strLe a.name b.name = true)) := by
  unfold iconLe
  simp

/-! ## Membership and score facts for `searchScored` / `iconScored` -/

theorem mem_searchScored {chunks : List Fragment} {query : Str} {src : Option Str}
    {e : RankedResult} (h : e ∈ searchScored chunks query src) :
    ∃ c ∈ chunks, e = scoreChunk (pySplitWS (toLower query)) c := by
  unfold searchScored at h
  have h1 := List.mem_filter.mp h
  obtain ⟨c, hc, rfl⟩ := List.mem_map.mp h1.1
  refine ⟨c, ?_, rfl⟩
  cases src with
  | none => simpa [searchCandidates] using hc
  | some s =>
    simp only [searchCandidates] at hc
    by_cases he : s.isEmpty
    · rw [if_pos he] at hc; exact hc
    · rw [if_neg he] at hc; exact List.mem_of_mem_filter hc

theorem searchScored_count_pos {chunks : List Fragment} {query : Str} {src : Option Str}
    {e : RankedResult} (h : e ∈ searchScored chunks query src) : 0 < e.match_count := by
  unfold searchScored at h
  have h1 := (List.mem_filter.mp h).2
  simpa using h1

theorem searchScored_count_le {chunks : List Fragment} {query : Str} {src : Option Str}
    {e : RankedResult} (h : e ∈ searchScored chunks query src) :
    e.match_count ≤ (pySplitWS (toLower query)).length := by
  obtain ⟨c, _, rfl⟩ := mem_searchScored h
  exact List.length_filter_le ..

theorem mem_iconScored {items : List IconItem} {query : Str} {t : Option Str}
    {e : IconResult} (h : e ∈ iconScored items query t) :
    ∃ it ∈ items, e = scoreIcon (pySplitWS (toLower query)) it := by
  unfold iconScored at h
  have h1 := List.mem_filter.mp h
  obtain ⟨it, hit, rfl⟩ := List.mem_map.mp h1.1
  refine ⟨it, ?_, rfl⟩
  rcases hnt : normType t with _ | nt
  · rw [hnt] at hit
    simpa [iconCandidates] using hit
  · rw [hnt] at hit
    simp only [iconCandidates] at hit
    exact List.mem_of_mem_filter hit

theorem iconScored_count_le {items : List IconItem} {query : Str} {t : Option Str}
    {e : IconResult} (h : e ∈ iconScored items query t) :
    e.match_count ≤ (pySplitWS (toLower query)).length := by
  obtain ⟨it, _, rfl⟩ := mem_iconScored h
  exact List.length_filter_le ..

/-! ## The two-tier structure -/

theorem two_tier_filter {α : Type} (le : α → α → Bool) (scored : List α) (pK pk : α → Bool)
    (hcls : ∀ a b, pk a = true → pk b = true → le a b = true)
    (bk : Bool) (hdet : ∀ a, pk a = true → pK a = bk) :
    (isort le (scored.filter pK) ++ isort le (scored.filter (fun a => !pK a))).filter pk
      = scored.filter pk := by
  rw [List.filter_append, isort_filter hcls, isort_filter hcls,
    List.filter_filter, List.filter_filter]
  cases bk
  · have h1 : scored.filter (fun a => pk a && pK a) = List.filter (fun _ => false) scored := by
      apply List.filter_congr
      intro a _
      cases hpk : pk a
      · rfl
      · simp [hdet a hpk]
    have h2 : scored.filter (fun a => pk a && !pK a) = scored.filter pk := by
      apply List.filter_congr
      intro a _
      cases hpk : pk a
      · rfl
      · simp [hdet a hpk]
    rw [h1, h2, List.filter_false]
    rfl
  · have h1 : scored.filter (fun a => pk a && pK a) = scored.filter pk := by
      apply List.filter_congr
      intro a _
      cases hpk : pk a
      · rfl
      · simp [hdet a hpk]
    have h2 : scored.filter (fun a => pk a && !pK a) = List.filter (fun _ => false) scored := by
      apply List.filter_congr
      intro a _
      cases hpk : pk a
      · rfl
      · simp [hdet a hpk]
    rw [h1, h2, List.filter_false]
    simp

theorem search_tier_props (chunks : List Fragment) (query : Str) (src : Option Str)
    (mr : Nat) :
    (search chunks query src mr).length ≤ mr
    ∧ (search chunks query src mr).Pairwise
        (fun a b => b.match_count ≤ a.match_count)
    ∧ (∀ e ∈ search chunks query src mr,
        0 < e.match_count ∧ e.match_count ≤ (pySplitWS (toLower query)).length)
    ∧ ∀ k : Nat, (search chunks query src mr).filter
          (fun e => decide (e.match_count = k))
        <+: (searchScored chunks query src).filter
          (fun e => decide (e.match_count = k)) := by
  by_cases hq : (pySplitWS (toLower query)).isEmpty
  · rw [search, if_pos hq]
    exact ⟨by simp, by simp, by simp, fun k => by simp⟩
  · rw [search, if_neg hq]
    have hPWE := (isort_pairwise countLe_total countLe_trans
      ((searchScored chunks query src).filter
        (fun e => decide (e.match_count = (pySplitWS (toLower query)).length)))).imp
      (fun h => by simpa [countLe] using h)
    have hPWP := (isort_pairwise countLe_total countLe_trans
      ((searchScored chunks query src).filter
        (fun e => !decide (e.match_count = (pySplitWS (toLower query)).length)))).imp
      (fun h => by simpa [countLe] using h)
    have hcross : ∀ a ∈ isort countLe ((searchScored chunks query src).filter
          (fun e => decide (e.match_count = (pySplitWS (toLower query)).length))),
        ∀ b ∈ isort countLe ((searchScored chunks query src).filter
          (fun e => !decide (e.match_count = (pySplitWS (toLower query)).length))),
        b.match_count ≤ a.match_count := by
      intro a ha b hb
      have ha2 := List.mem_filter.mp ((mem_isort _ a).mp ha)
      have hb2 := List.mem_filter.mp ((mem_isort _ b).mp hb)
      have haK : a.match_count = (pySplitWS (toLower query)).length :=
        of_decide_eq_true ha2.2
      have hbK := searchScored_count_le hb2.1
      omega
    have hPWX := List.pairwise_append.mpr ⟨hPWE, hPWP, hcross⟩
    have hsubset : ∀ e, e ∈ (isort countLe ((searchScored chunks query src).filter
          (fun e => decide (e.match_count = (pySplitWS (toLower query)).length))) ++
        isort countLe ((searchScored chunks query src).filter
          (fun e => !decide (e.match_count = (pySplitWS (toLower query)).length)))) →
        e ∈ searchScored chunks query src := by
      intro e he
      rcases List.mem_append.mp he with h | h
      · exact List.mem_of_mem_filter ((mem_isort _ e).mp h)
      · exact List.mem_of_mem_filter ((mem_isort _ e).mp h)
    refine ⟨List.length_take_le .., hPWX.sublist (List.take_sublist ..), ?_, ?_⟩
    · intro e he
      have he2 := hsubset e (List.take_subset _ _ he)
      exact ⟨searchScored_count_pos he2, searchScored_count_le he2⟩
    · intro k
      have hcls : ∀ a b : RankedResult, decide (a.match_count = k) = true →
          decide (b.match_count = k) = true → countLe a b = true := by
        intro a b h1 h2
        have h1' := of_decide_eq_true h1
        have h2' := of_decide_eq_true h2
        simp [countLe, h1', h2']
      have hdet : ∀ a : RankedResult, decide (a.match_count = k) = true →
          decide (a.match_count = (pySplitWS (toLower query)).length)
            = decide (k = (pySplitWS (toLower query)).length) := by
        intro a h
        rw [of_decide_eq_true h]
      have h2 := two_tier_filter countLe (searchScored chunks query src)
        (fun e => decide (e.match_count = (pySplitWS (toLower query)).length))
        (fun e => decide (e.match_count = k))
        hcls (decide (k = (pySplitWS (toLower query)).length)) hdet
      have h1 := filter_take_pre (isort countLe ((searchScored chunks query src).filter
          (fun e => decide (e.match_count = (pySplitWS (toLower query)).length))) ++
        isort countLe ((searchScored chunks query src).filter
          (fun e => !decide (e.match_count = (pySplitWS (toLower query)).length)))) mr
        (fun e => decide (e.match_count = k))
      rw [h2] at h1
      exact h1

theorem icon_tier_props (items : List IconItem) (query : Str) (t : Option Str)
    (mr : Nat) :
    (search_icon_catalog items query t mr).length ≤ mr
    ∧ (search_icon_catalog items query t mr).Pairwise
        (fun a b => b.match_count < a.match_count
          ∨ (a.match_count = b.match_count ∧ strLe a.name b.name = true))
    ∧ ∀ (k : Nat) (n : Str), (search_icon_catalog items query t mr).filter
          (fun e => decide (e.match_count = k) && decide (e.name = n))
        <+: (iconScored items query t).filter
          (fun e => decide (e.match_count = k) && decide (e.name = n)) := by
  by_cases hq : (pySplitWS (toLower query)).isEmpty
  · rw [search_icon_catalog, if_pos hq]
    exact ⟨by simp, by simp, fun k n => by simp⟩
  · rw [search_icon_catalog, if_neg hq]
    have hPWE := (isort_pairwise iconLe_total iconLe_trans
      ((iconScored items query t).filter
        (fun e => decide (e.match_count = (pySplitWS (toLower query)).length)))).imp
      (fun h => (iconLe_iff _ _).mp h)
    have hPWP := (isort_pairwise iconLe_total iconLe_trans
      ((iconScored items query t).filter
        (fun e => !decide (e.match_count = (pySplitWS (toLower query)).length)))).imp
      (fun h => (iconLe_iff _ _).mp h)
    have hcross : ∀ a ∈ isort iconLe ((iconScored items query t).filter
          (fun e => decide (e.match_count = (pySplitWS (toLower query)).length))),
        ∀ b ∈ isort iconLe ((iconScored items query t).filter
          (fun e => !decide (e.match_count = (pySplitWS (toLower query)).length))),
        b.match_count < a.match_count
          ∨ (a.match_count = b.match_count ∧ strLe a.name b.name = true) := by
      intro a ha b hb
      have ha2 := List.mem_filter.mp ((mem_isort _ a).mp ha)
      have hb2 := List.mem_filter.mp ((mem_isort _ b).mp hb)
      have haK : a.match_count = (pySplitWS (toLower query)).length :=
        of_decide_eq_true ha2.2
      have hbN : ¬ b.match_count = (pySplitWS (toLower query)).length := by
        have := hb2.2
        simpa using this
      have hbK := iconScored_count_le hb2.1
      left
      omega
    have hPWX := List.pairwise_append.mpr ⟨hPWE, hPWP, hcross⟩
    refine ⟨List.length_take_le .., hPWX.sublist (List.take_sublist ..), ?_⟩
    intro k n
    have hcls : ∀ a b : IconResult,
        (decide (a.match_count = k) && decide (a.name = n)) = true →
        (decide (b.match_count = k) && decide (b.name = n)) = true →
        iconLe a b = true := by
      intro a b h1 h2
      rcases Bool.and_eq_true .. |>.mp h1 with ⟨h1c, h1n⟩
      rcases Bool.and_eq_true .. |>.mp h2 with ⟨h2c, h2n⟩
      have h1c' := of_decide_eq_true h1c
      have h2c' := of_decide_eq_true h2c
      have h1n' := of_decide_eq_true h1n
      have h2n' := of_decide_eq_true h2n
      unfold iconLe
      have hnames : strLe a.name b.name = true := by
        rw [h1n', h2n']
        exact strLe_refl n
      simp [h1c', h2c', hnames]
    have hdet : ∀ a : IconResult,
        (decide (a.match_count = k) && decide (a.name = n)) = true →
        decide (a.match_count = (pySplitWS (toLower query)).length)
          = decide (k = (pySplitWS (toLower query)).length) := by
      intro a h
      rcases Bool.and_eq_true .. |>.mp h with ⟨hc, _⟩
      rw [of_decide_eq_true hc]
    have h2 := two_tier_filter iconLe (iconScored items query t)
      (fun e => decide (e.match_count = (pySplitWS (toLower query)).length))
      (fun e => decide (e.match_count = k) && decide (e.name = n))
      hcls (decide (k = (pySplitWS (toLower query)).length)) hdet
    have h1 := filter_take_pre (isort iconLe ((iconScored items query t).filter
        (fun e => decide (e.match_count = (pySplitWS (toLower query)).length))) ++
      isort iconLe ((iconScored items query t).filter
        (fun e => !decide (e.match_count = (pySplitWS (toLower query)).length)))) mr
      (fun e => decide (e.match_count = k) && decide (e.name = n))
    rw [h2] at h1
    exact h1

theorem mem_search_imp_scored {chunks : List Fragment} {query : Str} {src : Option Str}
    {mr : Nat} {r : RankedResult} (h : r ∈ search chunks query src mr) :
    r ∈ searchScored chunks query src := by
  unfold search at h
  split at h
  · simp at h
  · rcases List.mem_append.mp (List.take_subset _ _ h) with h2 | h2
    · exact List.mem_of_mem_filter ((mem_isort _ r).mp h2)
    · exact List.mem_of_mem_filter ((mem_isort _ r).mp h2)

theorem mem_icon_imp_scored {items : List IconItem} {query : Str} {t : Option Str}
    {mr : Nat} {r : IconResult} (h : r ∈ search_icon_catalog items query t mr) :
    r ∈ iconScored items query t := by
  unfold search_icon_catalog at h
  split at h
  · simp at h
  · rcases List.mem_append.mp (List.take_subset _ _ h) with h2 | h2
    · exact List.mem_of_mem_filter ((mem_isort _ r).mp h2)
    · exact List.mem_of_mem_filter ((mem_isort _ r).mp h2)

/-! ## Claim theorems for the searchers (C4, C5, C10) -/

/-- C4: every `search` result list is truncated to `max_results`, is
globally sorted by descending `match_count` — which, because exact-tier
entries have `match_count` equal to the token count and every entry's
`match_count` is at most the token count, implies that every exact-tier
entry precedes every partial-tier entry regardless of the partial
entry's raw count — and ties preserve input order: for each match-count
class `k`, the class subsequence of the result is a prefix of the input-
order scored candidates of that class (the class `k` lies in the exact
tier exactly when `k` equals the token count, so this also pins each
tier to input order).  `search_icon_catalog` is identical except that
its order additionally breaks count ties by ascending name, and its
stability classes are (count, name) pairs. -/
theorem search_two_tier_ranking :
    (∀ (chunks : List Fragment) (query : Str) (src : Option Str) (mr : Nat),
      (search chunks query src mr).length ≤ mr
      ∧ (search chunks query src mr).Pairwise
          (fun a b => b.match_count ≤ a.match_count)
      ∧ (∀ e ∈ search chunks query src mr,
          0 < e.match_count ∧ e.match_count ≤ (pySplitWS (toLower query)).length)
      ∧ ∀ k : Nat, (search chunks query src mr).filter
            (fun e => decide (e.match_count = k))
          <+: (searchScored chunks query src).filter
            (fun e => decide (e.match_count = k)))
    ∧ (∀ (items : List IconItem) (query : Str) (t : Option Str) (mr : Nat),
      (search_icon_catalog items query t mr).length ≤ mr
      ∧ (search_icon_catalog items query t mr).Pairwise
          (fun a b => b.match_count < a.match_count
            ∨ (a.match_count = b.match_count ∧ strLe a.name b.name = true))
      ∧ ∀ (k : Nat) (n : Str), (search_icon_catalog items query t mr).filter
            (fun e => decide (e.match_count = k) && decide (e.name = n))
          <+: (iconScored items query t).filter
            (fun e => decide (e.match_count = k) && decide (e.name = n))) :=
  ⟨search_tier_props, icon_tier_props⟩

/-- Witness for C4 at a concrete fragment list and query. -/
theorem search_two_tier_ranking_witness :
    0 < (scoreChunk (pySplitWS (toLower "wx".toList))
          ⟨['a'], ['u'], [], ['w', 'x']⟩).match_count
    ∧ (scoreChunk (pySplitWS (toLower "wx".toList))
          ⟨['a'], ['u'], [], ['w', 'x']⟩).match_count
        ≤ (pySplitWS (toLower "wx".toList)).length :=
  (search_two_tier_ranking.1 [⟨['a'], ['u'], [], ['w', 'x']⟩] "wx".toList none 10).2.2.1
    (scoreChunk (pySplitWS (toLower "wx".toList)) ⟨['a'], ['u'], [], ['w', 'x']⟩)
    (by
      have h : search [⟨['a'], ['u'], [], ['w', 'x']⟩] "wx".toList none 10
          = [scoreChunk (pySplitWS (toLower "wx".toList)) ⟨['a'], ['u'], [], ['w', 'x']⟩] :=
        rfl
      rw [h]
      exact List.mem_cons_self ..)

/-- Counterexample to C5 as stated: with the duplicate-token query
`"foo foo"` on a fragment containing `"foo"`, the result's
`match_count` is `2`, but only `1` distinct query token occurs in the
searchable text — the code counts token-list positions, not distinct
tokens. -/
theorem search_match_count_distinct_cex :
    ((search [⟨['s'], ['u'], [], "foo".toList⟩] ("foo foo".toList) none 10).map
      (fun r => r.match_count)) = [2]
    ∧ ((pySplitWS (toLower ("foo foo".toList))).dedup.filter (fun kw =>
        containsSub kw (searchableText [] "foo".toList))).length = 1 := by
  decide

/-- C5 amended: every result's `match_count` equals the number of
positions of the token list (query split on whitespace, lower-cased,
duplicates retained) whose token occurs as a substring of the
lower-cased `header + " " + content` (so a token matches even inside a
larger word), and `match_ratio` is `match_count` divided by the token
count. -/
theorem search_match_count_amended :
    ∀ (chunks : List Fragment) (query : Str) (src : Option Str) (mr : Nat)
      (r : RankedResult), r ∈ search chunks query src mr →
      r.match_count = ((pySplitWS (toLower query)).filter (fun kw =>
        containsSub kw (searchableText r.header r.content))).length
      ∧ r.match_ratio
          = (r.match_count : ℚ) / (((pySplitWS (toLower query)).length : Nat) : ℚ) := by
  intro chunks query src mr r hr
  obtain ⟨c, _, rfl⟩ := mem_searchScored (mem_search_imp_scored hr)
  exact ⟨rfl, rfl⟩

/-- Witness for the amended C5 at a concrete call. -/
theorem search_match_count_amended_witness :
    (scoreChunk (pySplitWS (toLower "wx".toList))
        ⟨['a'], ['u'], [], ['w', 'x']⟩).match_count
      = ((pySplitWS (toLower "wx".toList)).filter (fun kw =>
          containsSub kw (searchableText
            (scoreChunk (pySplitWS (toLower "wx".toList))
              ⟨['a'], ['u'], [], ['w', 'x']⟩).header
            (scoreChunk (pySplitWS (toLower "wx".toList))
              ⟨['a'], ['u'], [], ['w', 'x']⟩).content))).length :=
  (search_match_count_amended [⟨['a'], ['u'], [], ['w', 'x']⟩] "wx".toList none 10
    (scoreChunk (pySplitWS (toLower "wx".toList)) ⟨['a'], ['u'], [], ['w', 'x']⟩)
    (by
      have h : search [⟨['a'], ['u'], [], ['w', 'x']⟩] "wx".toList none 10
          = [scoreChunk (pySplitWS (toLower "wx".toList)) ⟨['a'], ['u'], [], ['w', 'x']⟩] :=
        rfl
      rw [h]
      exact List.mem_cons_self ..)).1

/-- C10: `search` and `search_icon_catalog` are pure functions in this
model (their inputs are immutable values), and every returned entry is a
newly built record whose copied fields are character-for-character equal
to those of some input fragment (resp. catalog item). -/
theorem search_preserves_input_fields :
    (∀ (chunks : List Fragment) (query : Str) (src : Option Str) (mr : Nat)
        (r : RankedResult), r ∈ search chunks query src mr →
      ∃ c ∈ chunks, r.source = c.source ∧ r.url = c.url ∧ r.header = c.header
        ∧ r.content = c.content)
    ∧ (∀ (items : List IconItem) (query : Str) (t : Option Str) (mr : Nat)
        (r : IconResult), r ∈ search_icon_catalog items query t mr →
      ∃ it ∈ items, r.name = it.name ∧ r.type = it.type ∧ r.src = it.src) := by
  constructor
  · intro chunks query src mr r hr
    obtain ⟨c, hc, rfl⟩ := mem_searchScored (mem_search_imp_scored hr)
    exact ⟨c, hc, rfl, rfl, rfl, rfl⟩
  · intro items query t mr r hr
    obtain ⟨it, hit, rfl⟩ := mem_iconScored (mem_icon_imp_scored hr)
    exact ⟨it, hit, rfl, rfl, rfl⟩

/-- Witness for C10 at a concrete icon-catalog search. -/
theorem search_preserves_input_fields_witness :
    ∃ it ∈ [(⟨"icon-a".toList, "icon-*".toList, ['u']⟩ : IconItem)],
      (scoreIcon (pySplitWS (toLower "icon".toList))
          ⟨"icon-a".toList, "icon-*".toList, ['u']⟩).name = it.name
      ∧ (scoreIcon (pySplitWS (toLower "icon".toList))
          ⟨"icon-a".toList, "icon-*".toList, ['u']⟩).type = it.type
      ∧ (scoreIcon (pySplitWS (toLower "icon".toList))
          ⟨"icon-a".toList, "icon-*".toList, ['u']⟩).src = it.src :=
  search_preserves_input_fields.2 [⟨"icon-a".toList, "icon-*".toList, ['u']⟩]
    "icon".toList none 10
    (scoreIcon (pySplitWS (toLower "icon".toList)) ⟨"icon-a".toList, "icon-*".toList, ['u']⟩)
    (by
      have h : search_icon_catalog [⟨"icon-a".toList, "icon-*".toList, ['u']⟩]
            "icon".toList none 10
          = [scoreIcon (pySplitWS (toLower "icon".toList))
              ⟨"icon-a".toList, "icon-*".toList, ['u']⟩] :=
        rfl
      rw [h]
      exact List.mem_cons_self ..)

/-! ## cache.py -/

/-- The on-disk state read by `cache.py`: the parsed hashes file when
`HASHES_FILE` exists, and whether `CHUNKS_FILE` exists. -/
structure CacheState where
  hashesFile : Option (List (Str × Str))
  chunksFileExists : Bool
deriving DecidableEq, Repr

/-- `load_hashes()` from `cache.py`: the stored mapping, or `{}` when
the hashes file is absent. -/
def load_hashes (st : CacheState) : List (Str × Str) := st.hashesFile.getD []

/-- Python `dict.get(key)` on a string-keyed mapping. -/
def dictGet (m : List (Str × Str)) (k : Str) : Option Str :=
  (m.find? (fun kv => decide (kv.1 = k))).map (fun kv => kv.2)

/-- `needs_refresh(current_raw_texts)` from `cache.py`, parameterized by
the digest function `hashFn` (SHA-256 over UTF-8 in the source, kept
abstract here): return true on the first key of `current_raw_texts`
whose freshly computed digest differs from the stored one (including a
missing stored digest); otherwise return true exactly when the chunks
cache file does not exist. -/
def needs_refresh (hashFn : Str → Str) (st : CacheState)
    (current : List (Str × Str)) : Bool :=
  if current.any (fun kv =>
      !decide (dictGet (load_hashes st) kv.1 = some (hashFn kv.2))) then true
  else if !st.chunksFileExists then true
  else false

/-- `update_hashes(raw_texts)` from `cache.py`: overwrite the hashes
file with the digest of every given text (the chunks file is untouched). -/
def update_hashes (hashFn : Str → Str) (st : CacheState)
    (raw : List (Str × Str)) : CacheState :=
  { st with hashesFile := some (raw.map (fun kv => (kv.1, hashFn kv.2))) }

/-! ## Claim theorems for the cache (C6, C7) -/

/-- C6: `needs_refresh` returns true iff the persisted fragment cache
file does not exist or some key present in the given mapping has a
fresh digest differing from its stored digest (a missing stored digest
included); the right-hand side mentions only the keys of the given
mapping, so stored digests of absent keys are never considered. -/
theorem needs_refresh_iff :
    ∀ (hashFn : Str → Str) (st : CacheState) (current : List (Str × Str)),
      needs_refresh hashFn st current = true ↔
        (st.chunksFileExists = false
          ∨ ∃ kv ∈ current, dictGet (load_hashes st) kv.1 ≠ some (hashFn kv.2)) := by
  intro hashFn st current
  unfold needs_refresh
  by_cases h : current.any (fun kv =>
      !decide (dictGet (load_hashes st) kv.1 = some (hashFn kv.2))) = true
  · rw [if_pos h]
    simp only [true_iff]
    right
    obtain ⟨kv, hkv, hne⟩ := List.any_eq_true.mp h
    exact ⟨kv, hkv, by simpa using hne⟩
  · rw [if_neg h]
    have hall : ∀ kv ∈ current, dictGet (load_hashes st) kv.1 = some (hashFn kv.2) := by
      intro kv hkv
      by_contra hne
      exact h (List.any_eq_true.mpr ⟨kv, hkv, by simpa using hne⟩)
    by_cases hc : st.chunksFileExists
    · rw [hc]
      simp only [Bool.not_true, if_neg (Bool.false_ne_true)]
      constructor
      · intro hfalse; exact absurd hfalse (by simp)
      · rintro (h1 | ⟨kv, hkv, hne⟩)
        · exact absurd h1 (by simp [hc])
        · exact absurd (hall kv hkv) hne
    · have hc2 : st.chunksFileExists = false := by simpa using hc
      rw [hc2]
      simp [hc2]

/-- Counterexample to C7 as stated: starting from a state with no
stored hashes but also no persisted chunk cache, `needs_refresh` still
returns true right after `update_hashes` with the same text, because
the missing chunks file alone forces a refresh — the claimed `false`
step does not hold for every such state. -/
theorem needs_refresh_scenario_cex :
    needs_refresh id
      (update_hashes id ⟨none, false⟩ [(['a'], ['t', 'e', 'x', 't', '1'])])
      [(['a'], ['t', 'e', 'x', 't', '1'])] = true := by
  decide

/-- C7 amended: starting from a state with no stored hashes,
`needs_refresh {a: text1}` is true; after `update_hashes {a: text1}` it
is false **provided the persisted fragment cache file exists**; and it
is true again for `{a: text2}` whenever the two texts' digests differ
(which SHA-256 collision resistance gives for `"text1"` vs `"text2"`). -/
theorem needs_refresh_scenario_amended :
    ∀ (hashFn : Str → Str) (st : CacheState),
      load_hashes st = [] →
      (needs_refresh hashFn st [(['a'], ['t', 'e', 'x', 't', '1'])] = true)
      ∧ (st.chunksFileExists = true →
          needs_refresh hashFn
            (update_hashes hashFn st [(['a'], ['t', 'e', 'x', 't', '1'])])
            [(['a'], ['t', 'e', 'x', 't', '1'])] = false)
      ∧ (hashFn ['t', 'e', 'x', 't', '2'] ≠ hashFn ['t', 'e', 'x', 't', '1'] →
          needs_refresh hashFn
            (update_hashes hashFn st [(['a'], ['t', 'e', 'x', 't', '1'])])
            [(['a'], ['t', 'e', 'x', 't', '2'])] = true) := by
  intro hashFn st h0
  have hget1 : dictGet (load_hashes st) ['a'] = none := by rw [h0]; rfl
  have hload2 : load_hashes (update_hashes hashFn st [(['a'], ['t', 'e', 'x', 't', '1'])])
      = [(['a'], hashFn ['t', 'e', 'x', 't', '1'])] := rfl
  have hget2 : dictGet [(['a'], hashFn ['t', 'e', 'x', 't', '1'])] ['a']
      = some (hashFn ['t', 'e', 'x', 't', '1']) := by
    simp [dictGet, List.find?]
  refine ⟨?_, ?_, ?_⟩
  · have hany : ([(['a'], ['t', 'e', 'x', 't', '1'])]).any (fun kv =>
        !decide (dictGet (load_hashes st) kv.1 = some (hashFn kv.2))) = true := by
      apply List.any_eq_true.mpr
      exact ⟨(['a'], ['t', 'e', 'x', 't', '1']), List.mem_cons_self .., by simp [hget1]⟩
    unfold needs_refresh
    rw [if_pos hany]
  · intro hc
    have hany : ([(['a'], ['t', 'e', 'x', 't', '1'])]).any (fun kv =>
        !decide (dictGet (load_hashes
          (update_hashes hashFn st [(['a'], ['t', 'e', 'x', 't', '1'])])) kv.1
            = some (hashFn kv.2))) = false := by
      apply List.any_eq_false.mpr
      intro kv hkv
      rcases List.mem_singleton.mp hkv with rfl
      rw [hload2]
      simp [hget2]
    unfold needs_refresh
    rw [if_neg (by rw [hany]; exact Bool.false_ne_true)]
    simp [update_hashes, hc]
  · intro hne
    have hdiff : ¬ (dictGet [(['a'], hashFn ['t', 'e', 'x', 't', '1'])] ['a']
        = some (hashFn ['t', 'e', 'x', 't', '2'])) := by
      rw [hget2]
      intro hcontra
      exact hne (Option.some.injEq .. ▸ hcontra).symm
    have hany : ([(['a'], ['t', 'e', 'x', 't', '2'])]).any (fun kv =>
        !decide (dictGet (load_hashes
          (update_hashes hashFn st [(['a'], ['t', 'e', 'x', 't', '1'])])) kv.1
            = some (hashFn kv.2))) = true := by
      apply List.any_eq_true.mpr
      refine ⟨(['a'], ['t', 'e', 'x', 't', '2']), List.mem_cons_self .., ?_⟩
      rw [hload2]
      simpa using hdiff
    unfold needs_refresh
    rw [if_pos hany]

/-- Witness for the amended C7 with the identity digest and a state
whose chunk cache file exists. -/
theorem needs_refresh_scenario_amended_witness :
    needs_refresh id (⟨none, true⟩ : CacheState)
      [(['a'], ['t', 'e', 'x', 't', '1'])] = true
    ∧ needs_refresh id (update_hashes id ⟨none, true⟩
        [(['a'], ['t', 'e', 'x', 't', '1'])])
        [(['a'], ['t', 'e', 'x', 't', '1'])] = false
    ∧ needs_refresh id (update_hashes id ⟨none, true⟩
        [(['a'], ['t', 'e', 'x', 't', '1'])])
        [(['a'], ['t', 'e', 'x', 't', '2'])] = true :=
  ⟨(needs_refresh_scenario_amended id ⟨none, true⟩ rfl).1,
   (needs_refresh_scenario_amended id ⟨none, true⟩ rfl).2.1 rfl,
   (needs_refresh_scenario_amended id ⟨none, true⟩ rfl).2.2 (by decide)⟩

/-! ## main.py: the `search_icons` tool entry point -/

/-- The outcome of one `search_icons` tool call: one of the synchronous
rejection messages, or a performed catalog search. -/
inductive IconToolResult where
  | noCatalog : IconToolResult
  | emptyQuery : IconToolResult
  | badType : IconToolResult
  | badMaxResults : IconToolResult
  | searched : List IconResult → IconToolResult
deriving DecidableEq, Repr

/-- The invalid-type test of `search_icons`: the normalized (lowered,
falsy-is-None) type filter is present but not among the lowered
supported types. -/
def badTypeCond (icon_type : Option Str) : Bool :=
  match normType icon_type with
  | some nt => !(SUPPORTED_ICON_TYPES.map toLower).contains nt
  | none => false

/-- `search_icons(query, icon_type, max_results)` from `main.py`, with
the loaded catalog `items` made explicit: reject an unloaded catalog,
then an empty (or whitespace-only) query, then an unsupported
`icon_type`, then `max_results < 1`; otherwise clamp `max_results` to
30 and run `search_icon_catalog` with the normalized type. -/
def search_icons (items : List IconItem) (query : Str) (icon_type : Option Str)
    (max_results : Int) : IconToolResult :=
  if items.isEmpty then .noCatalog
  else if (strip query).isEmpty then .emptyQuery
  else if badTypeCond icon_type then .badType
  else if max_results < 1 then .badMaxResults
  else .searched (search_icon_catalog items query (normType icon_type)
    (min max_results 30).toNat)

/-- Counterexample to C9 as stated: `max_results = 31` is outside the
documented range 1–30, yet the call is not rejected — it is clamped to
30 and the catalog search runs. -/
theorem search_icons_clamp_cex :
    search_icons [⟨"ab".toList, "icon-*".toList, ['u']⟩] ['a'] none 31
      = .searched (search_icon_catalog [⟨"ab".toList, "icon-*".toList, ['u']⟩]
          ['a'] none 30) := by
  rfl

/-- C9 amended: with a loaded catalog, an empty or whitespace-only
query, an unsupported `icon_type`, and `max_results < 1` are each
rejected synchronously with their own outcome (in that checking order),
and in all those cases no catalog search is performed; `max_results`
**above** 30, however, is not rejected — it is clamped to 30 and the
search proceeds. -/
theorem search_icons_validation_amended :
    ∀ (items : List IconItem) (query : Str) (t : Option Str) (mr : Int),
      items ≠ [] →
      ((strip query).isEmpty = true → search_icons items query t mr = .emptyQuery)
      ∧ ((strip query).isEmpty = false → badTypeCond t = true →
          search_icons items query t mr = .badType)
      ∧ ((strip query).isEmpty = false → badTypeCond t = false → mr < 1 →
          search_icons items query t mr = .badMaxResults)
      ∧ (((strip query).isEmpty = true ∨ badTypeCond t = true ∨ mr < 1) →
          ∀ rs, search_icons items query t mr ≠ .searched rs)
      ∧ ((strip query).isEmpty = false → badTypeCond t = false → 30 < mr →
          search_icons items query t mr
            = .searched (search_icon_catalog items query (normType t) 30)) := by
  intro items query t mr hitems
  have hne : items.isEmpty = false := by
    cases items with
    | nil => exact absurd rfl hitems
    | cons a as => rfl
  have hq : ∀ (hqe : (strip query).isEmpty = true),
      search_icons items query t mr = .emptyQuery := by
    intro hqe
    unfold search_icons
    rw [hne, if_neg (Bool.false_ne_true), if_pos hqe]
  have hb : ∀ (hqe : (strip query).isEmpty = false) (hbt : badTypeCond t = true),
      search_icons items query t mr = .badType := by
    intro hqe hbt
    unfold search_icons
    rw [hne, if_neg (Bool.false_ne_true), hqe, if_neg (Bool.false_ne_true), if_pos hbt]
  have hm : ∀ (hqe : (strip query).isEmpty = false) (hbt : badTypeCond t = false),
      mr < 1 → search_icons items query t mr = .badMaxResults := by
    intro hqe hbt hmr
    unfold search_icons
    rw [hne, if_neg (Bool.false_ne_true), hqe, if_neg (Bool.false_ne_true), hbt,
      if_neg (Bool.false_ne_true), if_pos hmr]
  refine ⟨hq, hb, hm, ?_, ?_⟩
  · rintro (h1 | h1 | h1) rs
    · rw [hq h1]; intro hcontra; exact nomatch hcontra
    · by_cases hqe : (strip query).isEmpty
      · rw [hq hqe]; intro hcontra; exact nomatch hcontra
      · rw [hb (by simpa using hqe) h1]; intro hcontra; exact nomatch hcontra
    · by_cases hqe : (strip query).isEmpty
      · rw [hq hqe]; intro hcontra; exact nomatch hcontra
      · by_cases hbt : badTypeCond t
        · rw [hb (by simpa using hqe) hbt]; intro hcontra; exact nomatch hcontra
        · rw [hm (by simpa using hqe) (by simpa using hbt) h1]
          intro hcontra; exact nomatch hcontra
  · intro hqe hbt hmr
    unfold search_icons
    rw [hne, if_neg (Bool.false_ne_true), hqe, if_neg (Bool.false_ne_true), hbt,
      if_neg (Bool.false_ne_true), if_neg (by omega)]
    have hmin : min mr 30 = 30 := min_eq_right (by omega)
    rw [hmin]
    rfl

/-- Witness for the amended C9 at concrete calls. -/
theorem search_icons_validation_amended_witness :
    search_icons [⟨"ab".toList, "icon-*".toList, ['u']⟩] [' '] none 5 = .emptyQuery
    ∧ search_icons [⟨"ab".toList, "icon-*".toList, ['u']⟩] ['a']
        (some "zzz".toList) 5 = .badType
    ∧ search_icons [⟨"ab".toList, "icon-*".toList, ['u']⟩] ['a'] none 0
        = .badMaxResults
    ∧ search_icons [⟨"ab".toList, "icon-*".toList, ['u']⟩] ['a'] none 31
        = .searched (search_icon_catalog [⟨"ab".toList, "icon-*".toList, ['u']⟩]
            ['a'] (normType none) 30) :=
  ⟨(search_icons_validation_amended [⟨"ab".toList, "icon-*".toList, ['u']⟩]
      [' '] none 5 (by decide)).1 (by decide),
   (search_icons_validation_amended [⟨"ab".toList, "icon-*".toList, ['u']⟩]
      ['a'] (some "zzz".toList) 5 (by decide)).2.1 (by decide) (by decide),
   (search_icons_validation_amended [⟨"ab".toList, "icon-*".toList, ['u']⟩]
      ['a'] none 0 (by decide)).2.2.1 (by decide) (by decide) (by decide),
   (search_icons_validation_amended [⟨"ab".toList, "icon-*".toList, ['u']⟩]
      ['a'] none 31 (by decide)).2.2.2.2 (by decide) (by decide) (by decide)⟩

end TossMcp
